import Mathlib

/-!
Release-note synchronisation (`worker/sync-release-notes.go`).

A shallow embedding of `GithubNoteImporter` and of the collaborators it talks to.

* The release catalog (`releasesRepo`), the hosted-git release service and the clock are
  outside the file.  They are represented by an `Env` of response oracles; the k-th call of
  an operation (counted from the call log of the run) receives the k-th response, which may
  also depend on the call's arguments.  Any deterministic collaborator is such an oracle.
* The state threaded through the code is a `World`: the catalog's note store and the log of
  every call made so far (catalog, service, clock, sleep, logger), in call order.
* `for { ... }` in `fetchAllReleasesFromGithub` need not terminate, so it carries fuel; a
  result `none` means that the fuel ran out, never that the code returned.
-/

namespace Worker

/-! ## Data model -/

/-- Field `Full` of `bhrelsrepo.Source`: the identifier such as `github.com/owner/repo`. -/
structure Source where
  Full : String
  deriving DecidableEq, Repr

/-- Modelled from the spec: the type `bhrelsrepo.ReleaseVersionRec` is declared outside the
file.  A local version record belongs to a release source and carries `VersionRaw`; its
mutable notes live in the catalog (`World.notes`). -/
structure ReleaseVersionRec where
  Source : String
  VersionRaw : String
  deriving DecidableEq, Repr

/-- The payload `bhnotesrepo.NoteRec`; the zero value has empty `Content`. -/
structure NoteRec where
  Content : String
  deriving DecidableEq, Repr

/-- The type `githubSource` of the file. -/
structure githubSource where
  Owner : String
  Repo : String
  deriving DecidableEq, Repr

/-- The three optional fields of `github.RepositoryRelease` that the file reads; `none` is
the nil pointer. -/
structure RepositoryRelease where
  Name : Option String
  TagName : Option String
  Body : Option String
  deriving DecidableEq, Repr

/-- An instant, in nanoseconds. -/
abbrev Time := Int

/-- A `time.Duration`, in nanoseconds. -/
abbrev Duration := Int

/-- The largest `time.Duration` (an int64). -/
def maxDuration : Duration := 2 ^ 63 - 1

/-- The smallest `time.Duration` (an int64). -/
def minDuration : Duration := -(2 ^ 63)

/-- The library's `Time.Sub`: the difference `t - u`, clamped to the range of a
duration. -/
def Time.Sub (t u : Time) : Duration :=
  if t - u > maxDuration then maxDuration
  else if t - u < minDuration then minDuration
  else t - u

/-- The fields `Remaining` and `Reset` of `github.Rate`. -/
structure Rate where
  Remaining : Int
  Reset : Time
  deriving DecidableEq, Repr

/-- The fields `NextPage` and `Rate` of `github.Response`. -/
structure Response where
  NextPage : Int
  Rate : Rate
  deriving DecidableEq, Repr

/-- The type `github.ListOptions`. -/
structure ListOptions where
  PerPage : Int
  Page : Int
  deriving DecidableEq, Repr

/-- What an error returned by `bosherr.WrapError` says it was doing. -/
inductive Context where
  | listingReleases
  | listingVersions (source : Source)
  | importingNotes (source : Source)
  | savingNotes (relVerRec : ReleaseVersionRec)
  | listingGithubReleases
  deriving DecidableEq, Repr

/-- An error value: one raised by a collaborator, or one wrapped by `bosherr.WrapError`. -/
inductive Error where
  | raw (msg : String)
  | wrap (cause : Error) (ctx : Context)
  deriving DecidableEq, Repr

/-- The five messages the file gives to its logger. -/
inductive LogMsg where
  | fetching (ghSource : githubSource)
  | fetchFailed (ghSource : githubSource) (err : Error)
  | sleeping (waitD : Duration)
  | leftWith (remaining : Int)
  | found (n : Nat) (ghSource : githubSource)
  deriving DecidableEq, Repr

/-- One call made by the code to a collaborator, with the error it got back if any. -/
inductive Event where
  | listAll (err : Option Error)
  | findAll (source : String) (err : Option Error)
  | listReleases (owner repo : String) (opts : ListOptions) (err : Option Error)
  | now (t : Time)
  | sleep (d : Duration)
  | setNotes (relVerRec : ReleaseVersionRec) (note : NoteRec) (err : Option Error)
  | logDebug (msg : LogMsg)
  | logError (msg : LogMsg)
  deriving DecidableEq, Repr

/-- One page of the release service: the releases and the response metadata. -/
abbrev Page := List RepositoryRelease × Response

/-- The responses of the collaborators.  The first argument of each oracle is the number of
earlier calls of the same operation in the run. -/
structure Env where
  ListAll : Nat → Except Error (List Source)
  FindAll : Nat → String → Except Error (List ReleaseVersionRec)
  SetNotes : Nat → ReleaseVersionRec → NoteRec → Option Error
  ListReleases : Nat → String → String → ListOptions → Except Error Page
  Now : Nat → Time

/-- The catalog's note store and the log of calls made so far, oldest first. -/
structure World where
  notes : ReleaseVersionRec → NoteRec
  log : List Event

/-! ## Collaborator calls -/

/-- Is the event a `ListAll` call? -/
def Event.isListAll : Event → Bool
  | .listAll _ => true
  | _ => false

/-- Is the event a `FindAll` call? -/
def Event.isFindAll : Event → Bool
  | .findAll _ _ => true
  | _ => false

/-- Is the event a `ListReleases` page request? -/
def Event.isRequest : Event → Bool
  | .listReleases _ _ _ _ => true
  | _ => false

/-- Is the event a clock reading? -/
def Event.isNow : Event → Bool
  | .now _ => true
  | _ => false

/-- Is the event a `SetNotes` call? -/
def Event.isSetNotes : Event → Bool
  | .setNotes _ _ _ => true
  | _ => false

/-- The error part of a result. -/
def errOf {α : Type} : Except Error α → Option Error
  | .error e => some e
  | .ok _ => none

/-- Append one event to the log. -/
def emit (e : Event) (w : World) : World :=
  { w with log := w.log ++ [e] }

/-- The call `i.releasesRepo.ListAll()`. -/
def ListAll (env : Env) (w : World) : Except Error (List Source) × World :=
  let r := env.ListAll (w.log.countP Event.isListAll)
  (r, emit (.listAll (errOf r)) w)

/-- The call `i.releasesRepo.FindAll(source.Full)`. -/
def FindAll (env : Env) (source : String) (w : World) :
    Except Error (List ReleaseVersionRec) × World :=
  let r := env.FindAll (w.log.countP Event.isFindAll) source
  (r, emit (.findAll source (errOf r)) w)

/-- The call `client.Repositories.ListReleases(owner, repo, listOpts)`. -/
def ListReleases (env : Env) (owner repo : String) (listOpts : ListOptions) (w : World) :
    Except Error Page × World :=
  let r := env.ListReleases (w.log.countP Event.isRequest) owner repo listOpts
  (r, emit (.listReleases owner repo listOpts (errOf r)) w)

/-- The call `time.Now()`. -/
def Now (env : Env) (w : World) : Time × World :=
  let t := env.Now (w.log.countP Event.isNow)
  (t, emit (.now t) w)

/-- The call `time.Sleep(d)`. -/
def Sleep (d : Duration) (w : World) : World :=
  emit (.sleep d) w

/-- The call `i.logger.Debug(i.logTag, ...)`. -/
def logDebug (msg : LogMsg) (w : World) : World :=
  emit (.logDebug msg) w

/-- The call `i.logger.Error(i.logTag, ...)`. -/
def logError (msg : LogMsg) (w : World) : World :=
  emit (.logError msg) w

/-- Replace the notes stored for one record. -/
def setNote (notes : ReleaseVersionRec → NoteRec) (relVerRec : ReleaseVersionRec)
    (note : NoteRec) : ReleaseVersionRec → NoteRec :=
  fun r => if r = relVerRec then note else notes r

/-- Modelled from the spec: the method `ReleaseVersionRec.SetNotes` is declared outside the
file.  `LocalVersionRecord.setNotes(NoteRecord) -> error` replaces the notes of that record
and of no other; a call that returns an error leaves the store as it was. -/
def SetNotes (env : Env) (relVerRec : ReleaseVersionRec) (note : NoteRec) (w : World) :
    Option Error × World :=
  let err := env.SetNotes (w.log.countP Event.isSetNotes) relVerRec note
  match err with
  | none =>
    (none, { notes := setNote w.notes relVerRec note,
             log := w.log ++ [.setNotes relVerRec note none] })
  | some e => (some e, emit (.setNotes relVerRec note (some e)) w)

/-! ## The code -/

/-- Split a list of characters at every occurrence of `sep`; `n` separators give `n + 1`
parts. -/
def splitChars (sep : Char) : List Char → List (List Char)
  | [] => [[]]
  | c :: cs =>
    if c = sep then [] :: splitChars sep cs
    else
      match splitChars sep cs with
      | [] => [[c]]
      | p :: ps => (c :: p) :: ps

/-- The library's `strings.Split(s, sep)` for a one-character separator. -/
def Split (s : String) (sep : Char) : List String :=
  (splitChars sep s.data).map String.mk

/-- The function `newGithubSource`. -/
def newGithubSource (source : Source) : githubSource × Bool :=
  match Split source.Full '/' with
  | [p0, p1, p2] =>
    if p0 = "github.com" then ({ Owner := p1, Repo := p2 }, true)
    else ({ Owner := "", Repo := "" }, false)
  | _ => ({ Owner := "", Repo := "" }, false)

/-- The `for { ... }` of `fetchAllReleasesFromGithub`, one iteration per unit of fuel. -/
def fetchLoop (env : Env) (ghSource : githubSource) :
    Nat → ListOptions → List RepositoryRelease → World →
      Option ((List RepositoryRelease × Option Error) × World)
  | 0, _, _, _ => none
  | fuel + 1, listOpts, allReleases, w =>
    match ListReleases env ghSource.Owner ghSource.Repo listOpts w with
    | (.error err, w1) => some ((allReleases, some (.wrap err .listingGithubReleases)), w1)
    | (.ok (releases, resp), w1) =>
      let w2 :=
        if resp.Rate.Remaining < 50 then
          let waitD := Time.Sub resp.Rate.Reset (Now env w1).1
          Sleep waitD (logDebug (.sleeping waitD) (Now env w1).2)
        else logDebug (.leftWith resp.Rate.Remaining) w1
      if resp.NextPage = 0 then some ((allReleases ++ releases, none), w2)
      else
        let w3 :=
          if (allReleases ++ releases).length > 200 then
            logDebug (.found (allReleases ++ releases).length ghSource) w2
          else w2
        fetchLoop env ghSource fuel { listOpts with Page := resp.NextPage }
          (allReleases ++ releases) w3

/-- The method `fetchAllReleasesFromGithub`. -/
def fetchAllReleasesFromGithub (env : Env) (fuel : Nat) (ghSource : githubSource)
    (w : World) : Option ((List RepositoryRelease × Option Error) × World) :=
  fetchLoop env ghSource fuel { PerPage := 30, Page := 0 } [] (logDebug (.fetching ghSource) w)

/-- The inner `for _, ghRelease := range allGhReleases` of `importNotesForRelease` for one
`relVerRec`: the first release whose name or tag name is the expected label gets its body
saved and ends the scan; a failed save is returned. -/
def scanReleases (env : Env) (relVerRec : ReleaseVersionRec) :
    List RepositoryRelease → World → Option Error × World
  | [], w => (none, w)
  | ghRelease :: rest, w =>
    let expectedLabel := "v" ++ relVerRec.VersionRaw
    let matchesName := ghRelease.Name.isSome && ghRelease.Name == some expectedLabel
    let matchesTagName := ghRelease.TagName.isSome && ghRelease.TagName == some expectedLabel
    if matchesName || matchesTagName then
      let noteRec : NoteRec :=
        match ghRelease.Body with
        | some body => { Content := body }
        | none => { Content := "" }
      match SetNotes env relVerRec noteRec w with
      | (some err, w1) => (some (.wrap err (.savingNotes relVerRec)), w1)
      | (none, w1) => (none, w1)
    else scanReleases env relVerRec rest w

/-- The outer `for _, relVerRec := range relVerRecs` of `importNotesForRelease`. -/
def importLoop (env : Env) (allGhReleases : List RepositoryRelease) :
    List ReleaseVersionRec → World → Option Error × World
  | [], w => (none, w)
  | relVerRec :: rest, w =>
    match scanReleases env relVerRec allGhReleases w with
    | (some err, w1) => (some err, w1)
    | (none, w1) => importLoop env allGhReleases rest w1

/-- The method `importNotesForRelease`. -/
def importNotesForRelease (env : Env) (fuel : Nat) (ghSource : githubSource)
    (relVerRecs : List ReleaseVersionRec) (w : World) : Option (Option Error × World) :=
  if relVerRecs.length = 0 then some (none, w)
  else
    match fetchAllReleasesFromGithub env fuel ghSource w with
    | none => none
    | some ((_, some err), w1) => some (none, logError (.fetchFailed ghSource err) w1)
    | some ((allGhReleases, none), w1) => some (importLoop env allGhReleases relVerRecs w1)

/-- The `for _, source := range sources` of `Sync`. -/
def syncLoop (env : Env) (fuel : Nat) : List Source → World → Option (Option Error × World)
  | [], w => some (none, w)
  | source :: rest, w =>
    match newGithubSource source with
    | (_, false) => syncLoop env fuel rest w
    | (ghSource, true) =>
      match FindAll env source.Full w with
      | (.error err, w1) => some (some (.wrap err (.listingVersions source)), w1)
      | (.ok relVerRecs, w1) =>
        match importNotesForRelease env fuel ghSource relVerRecs w1 with
        | none => none
        | some (some err, w2) => some (some (.wrap err (.importingNotes source)), w2)
        | some (none, w2) => syncLoop env fuel rest w2

/-- The method `Sync`. -/
def Sync (env : Env) (fuel : Nat) (w : World) : Option (Option Error × World) :=
  match ListAll env w with
  | (.error err, w1) => some (some (.wrap err .listingReleases), w1)
  | (.ok sources, w1) => syncLoop env fuel sources w1


/-! ## Reading the call log -/

/-- The page requests of a log, oldest first: owner, repository and list options. -/
def requestsOf (log : List Event) : List (String × String × ListOptions) :=
  log.filterMap fun e =>
    match e with
    | .listReleases owner repo opts _ => some (owner, repo, opts)
    | _ => none

/-- The durations of the `time.Sleep` calls of a log, oldest first. -/
def sleepsOf (log : List Event) : List Duration :=
  log.filterMap fun e =>
    match e with
    | .sleep d => some d
    | _ => none

/-- The clock readings of a log, oldest first. -/
def nowsOf (log : List Event) : List Time :=
  log.filterMap fun e =>
    match e with
    | .now t => some t
    | _ => none

/-- The `SetNotes` calls of a log, oldest first: record, note and outcome. -/
def setNotesOf (log : List Event) : List (ReleaseVersionRec × NoteRec × Option Error) :=
  log.filterMap fun e =>
    match e with
    | .setNotes relVerRec note err => some (relVerRec, note, err)
    | _ => none

/-- Does the release carry the expected label of the record, "v" followed by the raw
version, as its name or as its tag name?  An absent name or tag name never matches. -/
def labelMatches (relVerRec : ReleaseVersionRec) (ghRelease : RepositoryRelease) : Bool :=
  decide (ghRelease.Name = some ("v" ++ relVerRec.VersionRaw)) ||
    decide (ghRelease.TagName = some ("v" ++ relVerRec.VersionRaw))

/-- The first release, in list order, that carries the expected label of the record. -/
def firstMatch (relVerRec : ReleaseVersionRec) (releases : List RepositoryRelease) :
    Option RepositoryRelease :=
  releases.find? (labelMatches relVerRec)

/-- The note made from a release: its body, or the empty string when the body is absent. -/
def noteOf (ghRelease : RepositoryRelease) : NoteRec :=
  { Content := ghRelease.Body.getD "" }

/-- Is the event a call to the release catalog (`ListAll`, `FindAll`, `SetNotes`)? -/
def Event.isCatalog : Event → Bool
  | .listAll _ => true
  | .findAll _ _ => true
  | .setNotes _ _ _ => true
  | _ => false

/-- Is the event a catalog call that returned an error: listing the sources, listing the
versions of a source, or saving a note? -/
def Event.isFatal : Event → Bool
  | .listAll (some _) => true
  | .findAll _ (some _) => true
  | .setNotes _ _ (some _) => true
  | _ => false

/-- The service answers the request number `k` (for page `page`, 30 per page) with the
first page of the list without error, the next request (for the page that response
announces) with the second, and so on. -/
def Answers (env : Env) (owner repo : String) : Nat → Int → List Page → Prop
  | _, _, [] => True
  | k, page, p :: ps =>
    env.ListReleases k owner repo { PerPage := 30, Page := page } = .ok p ∧
      Answers env owner repo (k + 1) p.2.NextPage ps

/-- The page asked for after the pages `ps`, when the first request is for `page`. -/
def nextPageAfter : Int → List Page → Int
  | page, [] => page
  | _, p :: ps => nextPageAfter p.2.NextPage ps

/-- What may happen between the response `p` and the next page request: no request, and
either no sleep at all (quota 50 or more) or one clock reading `t` and one sleep of `d`
(quota below 50), where `d` is the difference `Reset - t` when that difference fits the 64
bits of a duration, and the nearest bound of that range when it does not. -/
def BackoffAfter (p : Page) (seg : List Event) : Prop :=
  (∀ e ∈ seg, e.isRequest = false) ∧
  if p.2.Rate.Remaining < 50 then
    ∃ t d : Int, nowsOf seg = [t] ∧ sleepsOf seg = [d] ∧
      (-(2 : Int) ^ 63 ≤ p.2.Rate.Reset - t ∧ p.2.Rate.Reset - t ≤ (2 : Int) ^ 63 - 1 →
        d = p.2.Rate.Reset - t) ∧
      (p.2.Rate.Reset - t > (2 : Int) ^ 63 - 1 → d = (2 : Int) ^ 63 - 1) ∧
      (p.2.Rate.Reset - t < -(2 : Int) ^ 63 → d = -(2 : Int) ^ 63)
  else sleepsOf seg = []

/-- The log of a fetch that issues the requests for `pages` and does `segs` in between. -/
def fetchLog (ghSource : githubSource) (pages : List Int) (segs : List (List Event)) :
    List Event :=
  (List.zipWith
    (fun page seg =>
      Event.listReleases ghSource.Owner ghSource.Repo { PerPage := 30, Page := page } none
        :: seg)
    pages segs).flatten

/-- One of the three catalog operations fails during the pass that `Sync` makes from `w`,
and `e` is the error made of it: listing the sources; or, once the sources before `source`
have been processed without error, listing the versions of `source`, which resolves as
supported; or, once the versions are listed, the releases fetched and the records before `r`
processed without error, saving the note of `r`, whose label the first release `rel` of the
fetched list carries. -/
def FatalFailure (env : Env) (fuel : Nat) (w : World) (e : Error) : Prop :=
  (∃ cause, env.ListAll (w.log.countP Event.isListAll) = .error cause ∧
    e = .wrap cause .listingReleases) ∨
  ∃ (pre : List Source) (source : Source) (post : List Source) (w1 : World),
    env.ListAll (w.log.countP Event.isListAll) = .ok (pre ++ source :: post) ∧
    syncLoop env fuel pre (emit (.listAll none) w) = some (none, w1) ∧
    (newGithubSource source).2 = true ∧
    ((∃ cause, env.FindAll (w1.log.countP Event.isFindAll) source.Full = .error cause ∧
        e = .wrap cause (.listingVersions source)) ∨
      ∃ (rpre : List ReleaseVersionRec) (r : ReleaseVersionRec)
        (rpost : List ReleaseVersionRec) (rels : List RepositoryRelease)
        (rel : RepositoryRelease) (w2 w3 : World) (cause : Error),
        env.FindAll (w1.log.countP Event.isFindAll) source.Full = .ok (rpre ++ r :: rpost) ∧
        fetchAllReleasesFromGithub env fuel (newGithubSource source).1
            (emit (.findAll source.Full none) w1) = some ((rels, none), w2) ∧
        importLoop env rels rpre w2 = (none, w3) ∧
        firstMatch r rels = some rel ∧
        env.SetNotes (w3.log.countP Event.isSetNotes) r { Content := rel.Body.getD "" }
          = some cause ∧
        e = .wrap (.wrap cause (.savingNotes r)) (.importingNotes source))

/-- The upstream answers the second run as it answered the first: reading on from the log
`l2`, the catalog and the service of `env2` give to the k-th call of `ListAll`, of `FindAll`,
of `SetNotes` and of `ListReleases` the response that those of `env` give to the k-th such
call reading on from the log `l`.  Nothing is asked of the two clocks. -/
def SameUpstream (env : Env) (l : List Event) (env2 : Env) (l2 : List Event) : Prop :=
  (∀ k, env2.ListAll (l2.countP Event.isListAll + k)
    = env.ListAll (l.countP Event.isListAll + k)) ∧
  (∀ k source, env2.FindAll (l2.countP Event.isFindAll + k) source
    = env.FindAll (l.countP Event.isFindAll + k) source) ∧
  (∀ k r note, env2.SetNotes (l2.countP Event.isSetNotes + k) r note
    = env.SetNotes (l.countP Event.isSetNotes + k) r note) ∧
  (∀ k owner repo opts, env2.ListReleases (l2.countP Event.isRequest + k) owner repo opts
    = env.ListReleases (l.countP Event.isRequest + k) owner repo opts)

/-- Two lists of calls with the same saves, in the same order and with the same outcomes,
and as many calls of `ListAll`, of `FindAll` and of `ListReleases`. -/
def SameCalls (evs evs2 : List Event) : Prop :=
  setNotesOf evs = setNotesOf evs2 ∧
  evs.countP Event.isListAll = evs2.countP Event.isListAll ∧
  evs.countP Event.isFindAll = evs2.countP Event.isFindAll ∧
  evs.countP Event.isRequest = evs2.countP Event.isRequest

/-- The effect of one logged call on the note store: a `SetNotes` that returned no error
replaces the notes of its record; no other call touches the store. -/
def applyEvent (e : Event) (notes : ReleaseVersionRec → NoteRec) :
    ReleaseVersionRec → NoteRec :=
  match e with
  | .setNotes relVerRec note none => setNote notes relVerRec note
  | _ => notes

/-- The effect of a sequence of logged calls on the note store, oldest first. -/
def applyEvents : List Event → (ReleaseVersionRec → NoteRec) → ReleaseVersionRec → NoteRec
  | [], notes => notes
  | e :: es, notes => applyEvents es (applyEvent e notes)

/-- The world after the calls `evs` have been made in `w`. -/
def advance (evs : List Event) (w : World) : World :=
  { notes := applyEvents evs w.notes, log := w.log ++ evs }

/-! ## Fixtures for the concrete runs -/

/-- A world with empty notes everywhere and an empty call log. -/
def emptyWorld : World :=
  { notes := fun _ => { Content := "" }, log := [] }

/-- A world in which every record holds the notes "stale" and nothing has been called. -/
def staleWorld : World :=
  { notes := fun _ => { Content := "stale" }, log := [] }

/-- The repository reference used in the concrete runs. -/
def boshSource : githubSource :=
  { Owner := "cloudfoundry", Repo := "bosh" }

/-- The repository reference of `srcA`. -/
def acmeSource : githubSource :=
  { Owner := "acme", Repo := "broken" }

/-- A source whose remote fetch fails on its second page. -/
def srcA : Source :=
  { Full := "github.com/acme/broken" }

/-- A source whose remote fetch succeeds. -/
def srcB : Source :=
  { Full := "github.com/cloudfoundry/bosh" }

/-- The version record of `srcA`. -/
def recA : ReleaseVersionRec :=
  { Source := "github.com/acme/broken", VersionRaw := "0.1.0" }

/-- The first version record of `srcB`. -/
def recB1 : ReleaseVersionRec :=
  { Source := "github.com/cloudfoundry/bosh", VersionRaw := "1.0.0" }

/-- The second version record of `srcB`. -/
def recB2 : ReleaseVersionRec :=
  { Source := "github.com/cloudfoundry/bosh", VersionRaw := "2.0.0" }

/-- A release named and tagged `v1.0.0` with a body. -/
def sampleRelease : RepositoryRelease :=
  { Name := some "v1.0.0", TagName := some "v1.0.0", Body := some "first release" }

/-- A release tagged `v2.0.0` without a name and without a body. -/
def release2 : RepositoryRelease :=
  { Name := none, TagName := some "v2.0.0", Body := none }

/-- A release of `srcA` that carries the label of `recA`. -/
def releaseA : RepositoryRelease :=
  { Name := some "v0.1.0", TagName := none, Body := some "alpha" }

/-- A service with three pages of 30, 30 and 5 releases, numbered 0, 2 and 3. -/
def threePageEnv : Env :=
  { ListAll := fun _ => .ok []
    FindAll := fun _ _ => .ok []
    SetNotes := fun _ _ _ => none
    ListReleases := fun _ _ _ opts =>
      if opts.Page = 0 then
        .ok (List.replicate 30 sampleRelease,
          { NextPage := 2, Rate := { Remaining := 4000, Reset := 0 } })
      else if opts.Page = 2 then
        .ok (List.replicate 30 sampleRelease,
          { NextPage := 3, Rate := { Remaining := 3999, Reset := 0 } })
      else if opts.Page = 3 then
        .ok (List.replicate 5 sampleRelease,
          { NextPage := 0, Rate := { Remaining := 3998, Reset := 0 } })
      else .error (.raw "not found")
    Now := fun _ => 0 }

/-- A service with two pages; after the first the quota is 10 and resets at instant 1000,
after the second the quota is 200.  The clock reads 400. -/
def lowQuotaEnv : Env :=
  { ListAll := fun _ => .ok []
    FindAll := fun _ _ => .ok []
    SetNotes := fun _ _ _ => none
    ListReleases := fun k _ _ _ =>
      if k = 0 then
        .ok ([sampleRelease], { NextPage := 2, Rate := { Remaining := 10, Reset := 1000 } })
      else if k = 1 then
        .ok ([], { NextPage := 3, Rate := { Remaining := 200, Reset := 1000 } })
      else .error (.raw "unavailable")
    Now := fun _ => 400 }

/-- A service with two pages; after the first the quota is 10 and resets 2^63 + 1000
nanoseconds after the clock reading 0, further away than a duration can express. -/
def farResetEnv : Env :=
  { ListAll := fun _ => .ok []
    FindAll := fun _ _ => .ok []
    SetNotes := fun _ _ _ => none
    ListReleases := fun k _ _ _ =>
      if k = 0 then
        .ok ([sampleRelease],
          { NextPage := 2, Rate := { Remaining := 10, Reset := 9223372036854776808 } })
      else .ok ([], { NextPage := 0, Rate := { Remaining := 200, Reset := 0 } })
    Now := fun _ => 0 }

/-- The log of the run of `lowQuotaEnv`: a sleep of 600 after the first response, none
after the second, and a third request that fails. -/
def lowQuotaLog : List Event :=
  [.logDebug (.fetching boshSource),
   .listReleases "cloudfoundry" "bosh" { PerPage := 30, Page := 0 } none,
   .now 400,
   .logDebug (.sleeping 600),
   .sleep 600,
   .listReleases "cloudfoundry" "bosh" { PerPage := 30, Page := 2 } none,
   .logDebug (.leftWith 200),
   .listReleases "cloudfoundry" "bosh" { PerPage := 30, Page := 3 }
     (some (.raw "unavailable"))]

/-- A catalog with the sources `srcA` and `srcB`; the service answers the first page of
`srcA` (with a release matching `recA`) and fails on its second page, and answers `srcB`
in one page; every save succeeds. -/
def isolationEnv : Env :=
  { ListAll := fun _ => .ok [srcA, srcB]
    FindAll := fun _ source =>
      if source = "github.com/acme/broken" then .ok [recA]
      else if source = "github.com/cloudfoundry/bosh" then .ok [recB1, recB2]
      else .error (.raw "unknown source")
    SetNotes := fun _ _ _ => none
    ListReleases := fun _ owner _ opts =>
      if owner = "acme" then
        if opts.Page = 0 then
          .ok ([releaseA], { NextPage := 2, Rate := { Remaining := 4000, Reset := 0 } })
        else .error (.raw "unavailable")
      else
        .ok ([sampleRelease, release2],
          { NextPage := 0, Rate := { Remaining := 4000, Reset := 0 } })
    Now := fun _ => 0 }

/-- The environment `isolationEnv`, except that the first save fails. -/
def writeFailEnv : Env :=
  { isolationEnv with
    SetNotes := fun k _ _ => if k = 0 then some (.raw "disk full") else none }

/-- A catalog with the one source `srcA`, which has no version records. -/
def emptySourceEnv : Env :=
  { ListAll := fun _ => .ok [srcA]
    FindAll := fun _ _ => .ok []
    SetNotes := fun _ _ _ => none
    ListReleases := fun _ _ _ _ => .error (.raw "unavailable")
    Now := fun _ => 0 }

/-- The calls of a fetch of `srcB` in `isolationEnv`. -/
def boshFetchLog : List Event :=
  [.logDebug (.fetching boshSource),
   .listReleases "cloudfoundry" "bosh" { PerPage := 30, Page := 0 } none,
   .logDebug (.leftWith 4000)]

/-- A catalog with the sources `srcA` and `srcB`, each with the record `recB1`, whose saves
succeed, and a service that fails on every page request. -/
def fetchDownEnv : Env :=
  { ListAll := fun _ => .ok [srcA, srcB]
    FindAll := fun _ _ => .ok [recB1]
    SetNotes := fun _ _ _ => none
    ListReleases := fun _ _ _ _ => .error (.raw "unavailable")
    Now := fun _ => 0 }

/-- The calls of `Sync` in `writeFailEnv` for the source `srcA`, whose fetch fails. -/
def acmeFailedLog : List Event :=
  [.listAll none,
   .findAll "github.com/acme/broken" none,
   .logDebug (.fetching acmeSource),
   .listReleases "acme" "broken" { PerPage := 30, Page := 0 } none,
   .logDebug (.leftWith 4000),
   .listReleases "acme" "broken" { PerPage := 30, Page := 2 } (some (.raw "unavailable")),
   .logError (.fetchFailed acmeSource (.wrap (.raw "unavailable") .listingGithubReleases))]

/-- A catalog with the source `srcB` and its two records, a service that answers in one
page with quota 10 and reset time 1000, and a clock that reads `now`. -/
def clockEnv (now : Time) : Env :=
  { ListAll := fun _ => .ok [srcB]
    FindAll := fun _ _ => .ok [recB1, recB2]
    SetNotes := fun _ _ _ => none
    ListReleases := fun _ _ _ _ =>
      .ok ([sampleRelease, release2],
        { NextPage := 0, Rate := { Remaining := 10, Reset := 1000 } })
    Now := fun _ => now }

/-- The calls of `Sync` in `clockEnv 400`, from an empty log. -/
def clockLog : List Event :=
  [.listAll none,
   .findAll "github.com/cloudfoundry/bosh" none,
   .logDebug (.fetching boshSource),
   .listReleases "cloudfoundry" "bosh" { PerPage := 30, Page := 0 } none,
   .now 400,
   .logDebug (.sleeping 600),
   .sleep 600,
   .setNotes recB1 { Content := "first release" } none,
   .setNotes recB2 { Content := "" } none]

/-! ## The source resolver -/

theorem splitChars_ne_nil (sep : Char) (l : List Char) : splitChars sep l ≠ [] := by
  cases l with
  | nil => simp [splitChars]
  | cons c cs =>
    simp only [splitChars]
    split
    · simp
    · split <;> simp

theorem splitChars_of_not_mem (sep : Char) (l : List Char) (h : sep ∉ l) :
    splitChars sep l = [l] := by
  induction l with
  | nil => rfl
  | cons c cs ih =>
    have hc : c ≠ sep := fun e => h (by simp [e])
    have hcs : sep ∉ cs := fun e => h (by simp [e])
    simp [splitChars, hc, ih hcs]

theorem splitChars_append_sep (sep : Char) (a b : List Char) (h : sep ∉ a) :
    splitChars sep (a ++ sep :: b) = a :: splitChars sep b := by
  induction a with
  | nil => simp [splitChars]
  | cons c cs ih =>
    have hc : c ≠ sep := fun e => h (by simp [e])
    have hcs : sep ∉ cs := fun e => h (by simp [e])
    simp [splitChars, hc, ih hcs]

theorem splitChars_three (sep : Char) (a o r : List Char) (ha : sep ∉ a) (ho : sep ∉ o)
    (hr : sep ∉ r) : splitChars sep (a ++ sep :: (o ++ sep :: r)) = [a, o, r] := by
  rw [splitChars_append_sep sep a _ ha, splitChars_append_sep sep o _ ho,
    splitChars_of_not_mem sep r hr]

/-- The parts of a split contain no separator, and joining them with the separator gives
the input back. -/
theorem splitChars_parts (sep : Char) (l : List Char) :
    (∀ p ∈ splitChars sep l, sep ∉ p) ∧ [sep].intercalate (splitChars sep l) = l := by
  induction l with
  | nil => simp [splitChars, List.intercalate]
  | cons c cs ih =>
    obtain ⟨ih1, ih2⟩ := ih
    simp only [splitChars]
    by_cases hc : c = sep
    · subst hc
      simp only [if_true]
      refine ⟨?_, ?_⟩
      · intro p hp
        rcases List.mem_cons.1 hp with rfl | hp
        · simp
        · exact ih1 p hp
      · cases hs : splitChars c cs with
        | nil => exact absurd hs (splitChars_ne_nil _ _)
        | cons q qs =>
          rw [hs] at ih2
          simp only [List.intercalate, List.intersperse, List.flatten] at ih2 ⊢
          simp [← ih2]
    · simp only [hc, if_false]
      cases hs : splitChars sep cs with
      | nil => exact absurd hs (splitChars_ne_nil _ _)
      | cons q qs =>
        rw [hs] at ih1 ih2
        refine ⟨?_, ?_⟩
        · intro p hp
          rcases List.mem_cons.1 hp with rfl | hp
          · intro hmem
            rcases List.mem_cons.1 hmem with e | e
            · exact hc e.symm
            · exact ih1 q (by simp) e
          · exact ih1 p (by simp [hp])
        · cases qs with
          | nil =>
            simp only [List.intercalate, List.intersperse, List.flatten] at ih2 ⊢
            simp [← ih2]
          | cons q2 qs2 =>
            simp only [List.intercalate, List.intersperse, List.flatten] at ih2 ⊢
            simp [← ih2]


theorem splitChars_eq_three (sep : Char) (l a o r : List Char)
    (h : splitChars sep l = [a, o, r]) :
    l = a ++ sep :: (o ++ sep :: r) ∧ sep ∉ a ∧ sep ∉ o ∧ sep ∉ r := by
  obtain ⟨h1, h2⟩ := splitChars_parts sep l
  rw [h] at h1 h2
  refine ⟨?_, h1 a (by simp), h1 o (by simp), h1 r (by simp)⟩
  rw [← h2]
  simp [List.intercalate, List.intersperse, List.flatten]

theorem Split_three (o r : String) (ho : '/' ∉ o.data) (hr : '/' ∉ r.data) :
    Split ("github.com/" ++ o ++ "/" ++ r) '/' = ["github.com", o, r] := by
  have hd : ("github.com/" ++ o ++ "/" ++ r).data
      = "github.com".data ++ '/' :: (o.data ++ '/' :: r.data) := by
    simp [String.data_append]
  have hg : '/' ∉ "github.com".data := by decide
  unfold Split
  rw [hd, splitChars_three '/' _ _ _ hg ho hr]
  rfl

theorem Split_eq_three (s p0 p1 p2 : String) (h : Split s '/' = [p0, p1, p2]) :
    s = p0 ++ "/" ++ p1 ++ "/" ++ p2 ∧ '/' ∉ p1.data ∧ '/' ∉ p2.data := by
  unfold Split at h
  cases hs : splitChars '/' s.data with
  | nil => simp [hs] at h
  | cons a t =>
    cases t with
    | nil => simp [hs] at h
    | cons b t =>
      cases t with
      | nil => simp [hs] at h
      | cons c t =>
        cases t with
        | cons d t => simp [hs] at h
        | nil =>
          rw [hs] at h
          simp only [List.map, List.cons.injEq, and_true] at h
          obtain ⟨rfl, rfl, rfl⟩ := h
          obtain ⟨e, -, hb, hc⟩ := splitChars_eq_three '/' _ _ _ _ hs
          refine ⟨?_, hb, hc⟩
          apply String.ext
          simp [String.data_append, e]

/-- C5. `newGithubSource` reports `valid = true` exactly when splitting the identifier on
"/" gives three parts of which the first is "github.com" (equivalently: the identifier is
"github.com/" ++ o ++ "/" ++ r for slash-free o and r); then Owner is the second part and
Repo the third; every other identifier gives `valid = false` with the zero `githubSource`.
The function is total and has no error result. -/
theorem newGithubSource_resolves (source : Source) :
    ((newGithubSource source).2 = true ↔
        ∃ p1 p2, Split source.Full '/' = ["github.com", p1, p2]) ∧
    ((newGithubSource source).2 = true ↔
        ∃ o r : String, '/' ∉ o.data ∧ '/' ∉ r.data ∧
          source.Full = "github.com/" ++ o ++ "/" ++ r) ∧
    (∀ p1 p2, Split source.Full '/' = ["github.com", p1, p2] →
        newGithubSource source = ({ Owner := p1, Repo := p2 }, true)) ∧
    (∀ o r : String, '/' ∉ o.data → '/' ∉ r.data →
        newGithubSource { Full := "github.com/" ++ o ++ "/" ++ r }
          = ({ Owner := o, Repo := r }, true)) ∧
    ((newGithubSource source).2 = false →
        newGithubSource source = ({ Owner := "", Repo := "" }, false)) := by
  have key : ∀ (src : Source) p1 p2, Split src.Full '/' = ["github.com", p1, p2] →
      newGithubSource src = ({ Owner := p1, Repo := p2 }, true) := by
    intro src p1 p2 h
    simp [newGithubSource, h]
  have back : ∀ src : Source, (newGithubSource src).2 = true →
      ∃ p1 p2, Split src.Full '/' = ["github.com", p1, p2] := by
    intro src h
    unfold newGithubSource at h
    split at h
    · rename_i p0 p1 p2 hs
      by_cases hp : p0 = "github.com"
      · exact ⟨p1, p2, by rw [hs, hp]⟩
      · simp [hp] at h
    · simp at h
  refine ⟨⟨back source, ?_⟩, ⟨?_, ?_⟩, key source, ?_, ?_⟩
  · rintro ⟨p1, p2, h⟩
    rw [key source p1 p2 h]
  · intro h
    obtain ⟨p1, p2, hs⟩ := back source h
    obtain ⟨e, h1, h2⟩ := Split_eq_three _ _ _ _ hs
    refine ⟨p1, p2, h1, h2, ?_⟩
    rw [e]
    apply String.ext
    simp [String.data_append]
  · rintro ⟨o, r, ho, hr, e⟩
    rw [key source o r (by rw [e]; exact Split_three o r ho hr)]
  · intro o r ho hr
    exact key _ o r (Split_three o r ho hr)
  · intro h
    unfold newGithubSource at h ⊢
    split
    · rename_i p0 p1 p2 hs
      rw [hs] at h
      by_cases hp : p0 = "github.com"
      · simp [hp] at h
      · simp [hp]
    · rfl

/-- C5, at a concrete identifier. -/
theorem newGithubSource_resolves_witness :
    newGithubSource { Full := "github.com/cloudfoundry/bosh" }
        = ({ Owner := "cloudfoundry", Repo := "bosh" }, true) ∧
    newGithubSource { Full := "gitlab.com/cloudfoundry/bosh" } = ({ Owner := "", Repo := "" }, false) ∧
    newGithubSource { Full := "github.com/cloudfoundry" } = ({ Owner := "", Repo := "" }, false) :=
  ⟨(newGithubSource_resolves { Full := "github.com/cloudfoundry/bosh" }).2.2.1
      "cloudfoundry" "bosh" (by decide),
    by decide, by decide⟩

/-- C10, as stated, fails: "github.com//" resolves as valid with empty Owner and Repo. -/
theorem newGithubSource_empty_parts :
    newGithubSource { Full := "github.com//" } = ({ Owner := "", Repo := "" }, true) := by
  decide

/-- C10, amended. When `newGithubSource` reports `valid = true`, Owner and Repo are the
second and third "/"-separated parts of the identifier: they contain no "/" and the
identifier is "github.com/" ++ Owner ++ "/" ++ Repo.  Either may be empty. -/
theorem newGithubSource_valid_parts (source : Source)
    (h : (newGithubSource source).2 = true) :
    '/' ∉ (newGithubSource source).1.Owner.data ∧
    '/' ∉ (newGithubSource source).1.Repo.data ∧
    source.Full = "github.com/" ++ (newGithubSource source).1.Owner ++ "/"
      ++ (newGithubSource source).1.Repo := by
  unfold newGithubSource at h ⊢
  split at h
  · rename_i p0 p1 p2 hs
    by_cases hp : p0 = "github.com"
    · obtain ⟨e, h1, h2⟩ := Split_eq_three _ _ _ _ hs
      simp only [hp, if_true]
      refine ⟨h1, h2, ?_⟩
      rw [e, hp]
      apply String.ext
      simp [String.data_append]
    · simp [hp] at h
  · simp at h

/-- C10 amended, at a concrete identifier. -/
theorem newGithubSource_valid_parts_witness :
    '/' ∉ (newGithubSource { Full := "github.com/cloudfoundry/bosh" }).1.Owner.data ∧
    '/' ∉ (newGithubSource { Full := "github.com/cloudfoundry/bosh" }).1.Repo.data ∧
    "github.com/cloudfoundry/bosh"
      = "github.com/" ++ (newGithubSource { Full := "github.com/cloudfoundry/bosh" }).1.Owner
          ++ "/" ++ (newGithubSource { Full := "github.com/cloudfoundry/bosh" }).1.Repo :=
  newGithubSource_valid_parts { Full := "github.com/cloudfoundry/bosh" } (by decide)


/-! ## The fetcher -/

theorem Time.Sub_eq (t u : Int) :
    Time.Sub t u = if (t - u : Int) > 9223372036854775807 then (9223372036854775807 : Int)
      else if (t - u : Int) < -9223372036854775808 then (-9223372036854775808 : Int)
      else (t - u : Int) := by
  rfl

/-- The library's `Time.Sub` is the difference, cut to the range of 64 bits. -/
theorem Time.Sub_spec (t u : Int) :
    (-(2 : Int) ^ 63 ≤ t - u ∧ t - u ≤ (2 : Int) ^ 63 - 1 → Time.Sub t u = t - u) ∧
    (t - u > (2 : Int) ^ 63 - 1 → Time.Sub t u = (2 : Int) ^ 63 - 1) ∧
    (t - u < -(2 : Int) ^ 63 → Time.Sub t u = -(2 : Int) ^ 63) := by
  have e1 : (2 : Int) ^ 63 = 9223372036854775808 := by norm_num
  rw [Time.Sub_eq, e1]
  refine ⟨?_, ?_, ?_⟩
  · rintro ⟨h1, h2⟩
    split_ifs <;> first | rfl | (exfalso; omega)
  · intro h
    split_ifs <;> first | rfl | (exfalso; omega)
  · intro h
    split_ifs <;> first | rfl | (exfalso; omega)

/-- One iteration of the loop whose request fails. -/
theorem fetchLoop_error (env : Env) (ghSource : githubSource) (f : Nat) (page : Int)
    (acc : List RepositoryRelease) (l : List Event) (err : Error)
    (h : env.ListReleases (l.countP Event.isRequest) ghSource.Owner ghSource.Repo
      { PerPage := 30, Page := page } = .error err) (n : ReleaseVersionRec → NoteRec) :
    fetchLoop env ghSource (f + 1) { PerPage := 30, Page := page } acc { notes := n, log := l }
      = some ((acc, some (.wrap err .listingGithubReleases)),
          { notes := n,
            log := l ++ [.listReleases ghSource.Owner ghSource.Repo
              { PerPage := 30, Page := page } (some err)] }) := by
  simp [fetchLoop, ListReleases, h, errOf, emit]

/-- One iteration of the loop whose request succeeds: the request, then a segment `seg`
without requests or catalog calls that obeys the backoff rule, then the end of the loop or
the next iteration. -/
theorem fetchLoop_step (env : Env) (ghSource : githubSource) (f : Nat) (page : Int)
    (acc : List RepositoryRelease) (l : List Event) (rels : List RepositoryRelease)
    (resp : Response)
    (h : env.ListReleases (l.countP Event.isRequest) ghSource.Owner ghSource.Repo
      { PerPage := 30, Page := page } = .ok (rels, resp)) :
    ∃ seg : List Event,
      BackoffAfter (rels, resp) seg ∧ (∀ e ∈ seg, e.isCatalog = false) ∧
      ∀ n : ReleaseVersionRec → NoteRec,
        fetchLoop env ghSource (f + 1) { PerPage := 30, Page := page } acc
            { notes := n, log := l }
          = if resp.NextPage = 0 then
              some ((acc ++ rels, none),
                { notes := n,
                  log := l ++ (.listReleases ghSource.Owner ghSource.Repo
                    { PerPage := 30, Page := page } none :: seg) })
            else
              fetchLoop env ghSource f { PerPage := 30, Page := resp.NextPage } (acc ++ rels)
                { notes := n,
                  log := l ++ (.listReleases ghSource.Owner ghSource.Repo
                    { PerPage := 30, Page := page } none :: seg) } := by
  by_cases hq : resp.Rate.Remaining < 50
  · by_cases hnp : resp.NextPage = 0
    · refine ⟨[.now (env.Now (l.countP Event.isNow)),
          .logDebug (.sleeping (Time.Sub resp.Rate.Reset (env.Now (l.countP Event.isNow)))),
          .sleep (Time.Sub resp.Rate.Reset (env.Now (l.countP Event.isNow)))], ?_, ?_, ?_⟩
      · exact ⟨by simp [Event.isRequest], by
          rw [if_pos hq]
          exact ⟨env.Now (l.countP Event.isNow),
              Time.Sub resp.Rate.Reset (env.Now (l.countP Event.isNow)), rfl, rfl,
              Time.Sub_spec _ _⟩⟩
      · simp [Event.isCatalog]
      · intro n
        simp [fetchLoop, ListReleases, h, errOf, hq, hnp, Sleep, logDebug, Now, emit,
          Event.isNow]
    · by_cases hbig : (acc ++ rels).length > 200 <;>
        have hbig2 := hbig <;> simp only [List.length_append, gt_iff_lt] at hbig2
      · refine ⟨[.now (env.Now (l.countP Event.isNow)),
            .logDebug (.sleeping (Time.Sub resp.Rate.Reset (env.Now (l.countP Event.isNow)))),
            .sleep (Time.Sub resp.Rate.Reset (env.Now (l.countP Event.isNow))),
            .logDebug (.found (acc ++ rels).length ghSource)], ?_, ?_, ?_⟩
        · exact ⟨by simp [Event.isRequest], by
            rw [if_pos hq]
            exact ⟨env.Now (l.countP Event.isNow),
              Time.Sub resp.Rate.Reset (env.Now (l.countP Event.isNow)), rfl, rfl,
              Time.Sub_spec _ _⟩⟩
        · simp [Event.isCatalog]
        · intro n
          simp [fetchLoop, ListReleases, h, errOf, hq, hnp, hbig2, Sleep, logDebug, Now, emit,
            Event.isNow]
      · refine ⟨[.now (env.Now (l.countP Event.isNow)),
            .logDebug (.sleeping (Time.Sub resp.Rate.Reset (env.Now (l.countP Event.isNow)))),
            .sleep (Time.Sub resp.Rate.Reset (env.Now (l.countP Event.isNow)))], ?_, ?_, ?_⟩
        · exact ⟨by simp [Event.isRequest], by
            rw [if_pos hq]
            exact ⟨env.Now (l.countP Event.isNow),
              Time.Sub resp.Rate.Reset (env.Now (l.countP Event.isNow)), rfl, rfl,
              Time.Sub_spec _ _⟩⟩
        · simp [Event.isCatalog]
        · intro n
          simp [fetchLoop, ListReleases, h, errOf, hq, hnp, hbig2, Sleep, logDebug, Now, emit,
            Event.isNow]
  · by_cases hnp : resp.NextPage = 0
    · refine ⟨[.logDebug (.leftWith resp.Rate.Remaining)], ?_, ?_, ?_⟩
      · simp [BackoffAfter, hq, Event.isRequest, sleepsOf]
      · simp [Event.isCatalog]
      · intro n
        simp [fetchLoop, ListReleases, h, errOf, hq, hnp, logDebug, emit]
    · by_cases hbig : (acc ++ rels).length > 200 <;>
        have hbig2 := hbig <;> simp only [List.length_append, gt_iff_lt] at hbig2
      · refine ⟨[.logDebug (.leftWith resp.Rate.Remaining),
            .logDebug (.found (acc ++ rels).length ghSource)], ?_, ?_, ?_⟩
        · simp [BackoffAfter, hq, Event.isRequest, sleepsOf]
        · simp [Event.isCatalog]
        · intro n
          simp [fetchLoop, ListReleases, h, errOf, hq, hnp, hbig2, logDebug, emit]
      · refine ⟨[.logDebug (.leftWith resp.Rate.Remaining)], ?_, ?_, ?_⟩
        · simp [BackoffAfter, hq, Event.isRequest, sleepsOf]
        · simp [Event.isCatalog]
        · intro n
          simp [fetchLoop, ListReleases, h, errOf, hq, hnp, hbig2, logDebug, emit]

/-- A request followed by a segment without requests adds one to the request count. -/
theorem countP_request_seg (l seg : List Event) (e : Event) (he : e.isRequest = true)
    (hseg : ∀ x ∈ seg, x.isRequest = false) :
    List.countP Event.isRequest (l ++ e :: seg) = List.countP Event.isRequest l + 1 := by
  rw [List.countP_append, List.countP_cons]
  have : List.countP Event.isRequest seg = 0 := by
    rw [List.countP_eq_zero]
    intro x hx
    simp [hseg x hx]
  simp [this, he]


theorem fetchLog_cons (ghSource : githubSource) (page : Int) (pages : List Int)
    (seg : List Event) (segs : List (List Event)) :
    fetchLog ghSource (page :: pages) (seg :: segs)
      = (Event.listReleases ghSource.Owner ghSource.Repo { PerPage := 30, Page := page } none
          :: seg) ++ fetchLog ghSource pages segs := by
  simp [fetchLog]

/-- With enough fuel, a service that answers a chain of pages is read to the end. -/
theorem fetchLoop_chain (env : Env) (ghSource : githubSource) (last : Page)
    (hlast : last.2.NextPage = 0) :
    ∀ (init : List Page) (fuel : Nat) (page : Int) (acc : List RepositoryRelease)
      (l : List Event) (n : ReleaseVersionRec → NoteRec),
      Answers env ghSource.Owner ghSource.Repo (l.countP Event.isRequest) page
        (init ++ [last]) →
      (∀ p ∈ init, p.2.NextPage ≠ 0) →
      init.length + 1 ≤ fuel →
      ∃ segs : List (List Event),
        fetchLoop env ghSource fuel { PerPage := 30, Page := page } acc
            { notes := n, log := l }
          = some ((acc ++ ((init ++ [last]).map Prod.fst).flatten, none),
              { notes := n,
                log := l ++ fetchLog ghSource (page :: init.map (·.2.NextPage)) segs }) ∧
        List.Forall₂ BackoffAfter (init ++ [last]) segs := by
  intro init
  induction init with
  | nil =>
    intro fuel page acc l n hans _ hfuel
    obtain ⟨f, rfl⟩ : ∃ f, fuel = f + 1 := ⟨fuel - 1, by omega⟩
    obtain ⟨rels, resp⟩ := last
    simp only [List.nil_append, Answers, and_true] at hans
    simp only at hlast
    obtain ⟨seg, hb, -, hstep⟩ := fetchLoop_step env ghSource f page acc l rels resp hans
    refine ⟨[seg], ?_, List.Forall₂.cons hb List.Forall₂.nil⟩
    rw [hstep n, if_pos hlast]
    simp [fetchLog]
  | cons p init ih =>
    intro fuel page acc l n hans hnext hfuel
    obtain ⟨f, rfl⟩ : ∃ f, fuel = f + 1 := ⟨fuel - 1, by simp at hfuel; omega⟩
    obtain ⟨rels, resp⟩ := p
    simp only [List.cons_append, Answers] at hans
    obtain ⟨hans1, hans2⟩ := hans
    have hnp : resp.NextPage ≠ 0 := hnext (rels, resp) (by simp)
    obtain ⟨seg, hb, -, hstep⟩ := fetchLoop_step env ghSource f page acc l rels resp hans1
    have hcount := countP_request_seg l seg
      (.listReleases ghSource.Owner ghSource.Repo { PerPage := 30, Page := page } none)
      rfl hb.1
    obtain ⟨segs, h1, h2⟩ := ih f resp.NextPage (acc ++ rels) _ n
      (by rw [hcount]; exact hans2) (fun q hq => hnext q (by simp [hq]))
      (by simp at hfuel; omega)
    refine ⟨seg :: segs, ?_, List.Forall₂.cons hb h2⟩
    rw [hstep n, if_neg hnp, h1]
    simp [fetchLog_cons, List.append_assoc]

/-- What a fetch that returns has done, whatever the service answers: the result and the
new events do not depend on the note store; the events are the requests for the pages the
service answered, each followed by a segment obeying the backoff rule, and possibly one
last request that failed; none of them is a catalog call. -/
theorem fetchLoop_shape (env : Env) (ghSource : githubSource) :
    ∀ (fuel : Nat) (page : Int) (acc : List RepositoryRelease) (l : List Event),
      ∃ r : Option ((List RepositoryRelease × Option Error) × List Event),
        (∀ n : ReleaseVersionRec → NoteRec,
          fetchLoop env ghSource fuel { PerPage := 30, Page := page } acc
              { notes := n, log := l }
            = r.map fun x => (x.1, { notes := n, log := l ++ x.2 })) ∧
        ∀ x, r = some x →
          (∀ e ∈ x.2, e.isCatalog = false) ∧
          ∃ (ps : List Page) (segs : List (List Event)) (tail : List Event),
            Answers env ghSource.Owner ghSource.Repo (l.countP Event.isRequest) page ps ∧
            x.2 = fetchLog ghSource (page :: ps.map (·.2.NextPage)) segs ++ tail ∧
            List.Forall₂ BackoffAfter ps segs ∧
            ((tail = [] ∧ x.1.2 = none) ∨
              ∃ pg err, tail = [.listReleases ghSource.Owner ghSource.Repo
                { PerPage := 30, Page := pg } (some err)] ∧ x.1.2 ≠ none) := by
  intro fuel
  induction fuel with
  | zero =>
    intro page acc l
    exact ⟨none, fun n => by simp [fetchLoop], fun x hx => by simp at hx⟩
  | succ f ih =>
    intro page acc l
    cases h : env.ListReleases (l.countP Event.isRequest) ghSource.Owner ghSource.Repo
        { PerPage := 30, Page := page } with
    | error err =>
      refine ⟨some ((acc, some (.wrap err .listingGithubReleases)),
        [.listReleases ghSource.Owner ghSource.Repo { PerPage := 30, Page := page }
          (some err)]), fun n => ?_, ?_⟩
      · rw [fetchLoop_error env ghSource f page acc l err h n]
        rfl
      · intro x hx
        obtain rfl := Option.some.inj hx
        refine ⟨by simp [Event.isCatalog], [], [], _, trivial, ?_, List.Forall₂.nil,
          Or.inr ⟨page, err, rfl, by simp⟩⟩
        simp [fetchLog]
    | ok p =>
      obtain ⟨rels, resp⟩ := p
      obtain ⟨seg, hb, hcat, hstep⟩ := fetchLoop_step env ghSource f page acc l rels resp h
      by_cases hnp : resp.NextPage = 0
      · refine ⟨some ((acc ++ rels, none),
          .listReleases ghSource.Owner ghSource.Repo { PerPage := 30, Page := page } none
            :: seg), fun n => ?_, ?_⟩
        · rw [hstep n, if_pos hnp]
          rfl
        · intro x hx
          obtain rfl := Option.some.inj hx
          refine ⟨?_, [(rels, resp)], [seg], [], ⟨h, trivial⟩, ?_,
            List.Forall₂.cons hb List.Forall₂.nil, Or.inl ⟨rfl, rfl⟩⟩
          · intro e he
            rcases List.mem_cons.1 he with rfl | he
            · rfl
            · exact hcat e he
          · simp [fetchLog]
      · have hcount := countP_request_seg l seg
          (.listReleases ghSource.Owner ghSource.Repo { PerPage := 30, Page := page } none)
          rfl hb.1
        obtain ⟨r, hr1, hr2⟩ := ih resp.NextPage (acc ++ rels)
          (l ++ (.listReleases ghSource.Owner ghSource.Repo
            { PerPage := 30, Page := page } none :: seg))
        refine ⟨r.map fun x => (x.1,
          (.listReleases ghSource.Owner ghSource.Repo { PerPage := 30, Page := page } none
            :: seg) ++ x.2), fun n => ?_, ?_⟩
        · rw [hstep n, if_neg hnp, hr1 n]
          cases r <;> simp
        · intro x hx
          cases r with
          | none => simp at hx
          | some y =>
            simp only [Option.map_some', Option.some.injEq] at hx
            subst hx
            obtain ⟨hc, ps, segs, tail, ha, he, hf, ht⟩ := hr2 y rfl
            refine ⟨?_, (rels, resp) :: ps, seg :: segs, tail, ⟨h, ?_⟩, ?_,
              List.Forall₂.cons hb hf, ht⟩
            · intro e he
              rcases List.mem_append.1 he with he | he
              · rcases List.mem_cons.1 he with rfl | he
                · rfl
                · exact hcat e he
              · exact hc e he
            · rw [hcount] at ha
              exact ha
            · simp only [List.map_cons, fetchLog_cons, he, List.append_assoc]


theorem requestsOf_append (l1 l2 : List Event) :
    requestsOf (l1 ++ l2) = requestsOf l1 ++ requestsOf l2 := by
  simp [requestsOf, List.filterMap_append]

theorem requestsOf_quiet (seg : List Event) (h : ∀ e ∈ seg, e.isRequest = false) :
    requestsOf seg = [] := by
  induction seg with
  | nil => rfl
  | cons e seg ih =>
    have he := h e (by simp)
    have ih2 := ih (fun x hx => h x (by simp [hx]))
    cases e <;> simp_all [requestsOf, Event.isRequest]

theorem requestsOf_fetchLog (ghSource : githubSource) :
    ∀ (pages : List Int) (segs : List (List Event)), pages.length = segs.length →
      (∀ seg ∈ segs, ∀ e ∈ seg, e.isRequest = false) →
      requestsOf (fetchLog ghSource pages segs)
        = pages.map fun pg =>
            (ghSource.Owner, ghSource.Repo, ({ PerPage := 30, Page := pg } : ListOptions)) := by
  intro pages
  induction pages with
  | nil => intro segs _ _; simp [fetchLog, requestsOf]
  | cons pg pages ih =>
    intro segs hlen hq
    cases segs with
    | nil => simp at hlen
    | cons seg segs =>
      rw [fetchLog_cons, requestsOf_append, ih segs (by simpa using hlen)
        (fun s hs => hq s (by simp [hs]))]
      have h0 : requestsOf seg = [] := requestsOf_quiet seg (hq seg (by simp))
      simp [requestsOf, h0] at h0 ⊢
      exact h0

theorem forall₂_backoff_quiet (ps : List Page) (segs : List (List Event))
    (h : List.Forall₂ BackoffAfter ps segs) :
    ∀ seg ∈ segs, ∀ e ∈ seg, e.isRequest = false := by
  induction h with
  | nil => simp
  | cons hb _ ih =>
    intro seg hseg
    rcases List.mem_cons.1 hseg with rfl | hseg
    · exact hb.1
    · exact ih seg hseg

/-- C6. When the service answers the n >= 1 page requests of a fetch without error, the
first n-1 responses announcing a next page and the n-th announcing none, then with fuel for
n iterations `fetchAllReleasesFromGithub` returns no error and the concatenation of the n
pages in request order, and issues exactly n requests: page size 30, the first for page 0,
each later one for the page the previous response announced. -/
theorem fetchAll_pagination (env : Env) (fuel : Nat) (ghSource : githubSource) (w : World)
    (init : List Page) (last : Page)
    (hans : Answers env ghSource.Owner ghSource.Repo (w.log.countP Event.isRequest) 0
      (init ++ [last]))
    (hnext : ∀ p ∈ init, p.2.NextPage ≠ 0) (hlast : last.2.NextPage = 0)
    (hfuel : init.length + 1 ≤ fuel) :
    ∃ (w1 : World) (evs : List Event),
      fetchAllReleasesFromGithub env fuel ghSource w
        = some ((((init ++ [last]).map Prod.fst).flatten, none), w1) ∧
      w1.notes = w.notes ∧ w1.log = w.log ++ evs ∧
      requestsOf evs = (0 :: init.map (·.2.NextPage)).map (fun pg =>
        (ghSource.Owner, ghSource.Repo, ({ PerPage := 30, Page := pg } : ListOptions))) ∧
      (requestsOf evs).length = init.length + 1 := by
  obtain ⟨segs, h1, h2⟩ := fetchLoop_chain env ghSource last hlast init fuel 0 []
    (w.log ++ [.logDebug (.fetching ghSource)]) w.notes
    (by simpa [List.countP_append, Event.isRequest] using hans) hnext hfuel
  have hlen : (0 :: init.map (·.2.NextPage)).length = segs.length := by
    rw [← h2.length_eq]
    simp
  have hreq := requestsOf_fetchLog ghSource _ segs hlen (forall₂_backoff_quiet _ _ h2)
  refine ⟨World.mk w.notes (w.log ++ Event.logDebug (.fetching ghSource)
        :: fetchLog ghSource (0 :: init.map (·.2.NextPage)) segs),
    .logDebug (.fetching ghSource)
      :: fetchLog ghSource (0 :: init.map (·.2.NextPage)) segs, ?_, rfl, rfl, ?_, ?_⟩
  · simp only [fetchAllReleasesFromGithub, logDebug, emit]
    rw [h1]
    simp
  · rw [← hreq]
    simp [requestsOf]
  · have : requestsOf (.logDebug (.fetching ghSource)
        :: fetchLog ghSource (0 :: init.map (·.2.NextPage)) segs)
        = requestsOf (fetchLog ghSource (0 :: init.map (·.2.NextPage)) segs) := by
      simp [requestsOf]
    rw [this, hreq]
    simp

/-- C6 on the pages 30/30/5: 65 releases from exactly 3 requests. -/
theorem fetchAll_pagination_witness :
    ∃ (w1 : World) (evs : List Event),
      fetchAllReleasesFromGithub threePageEnv 3 boshSource emptyWorld
        = some ((List.replicate 65 sampleRelease, none), w1) ∧
      w1.notes = emptyWorld.notes ∧ w1.log = emptyWorld.log ++ evs ∧
      requestsOf evs =
        [("cloudfoundry", "bosh", { PerPage := 30, Page := 0 }),
         ("cloudfoundry", "bosh", { PerPage := 30, Page := 2 }),
         ("cloudfoundry", "bosh", { PerPage := 30, Page := 3 })] ∧
      (requestsOf evs).length = 3 :=
  fetchAll_pagination threePageEnv 3 boshSource emptyWorld
    [(List.replicate 30 sampleRelease,
        { NextPage := 2, Rate := { Remaining := 4000, Reset := 0 } }),
      (List.replicate 30 sampleRelease,
        { NextPage := 3, Rate := { Remaining := 3999, Reset := 0 } })]
    (List.replicate 5 sampleRelease,
      { NextPage := 0, Rate := { Remaining := 3998, Reset := 0 } })
    ⟨rfl, rfl, rfl, trivial⟩ (by decide) rfl (by decide)

/-- C7, as stated, fails: the quota after the first page is 10 and the reset time lies
2^63 + 1000 nanoseconds after the clock reading, yet the one sleep before the second request
lasts 2^63 - 1 nanoseconds, the longest duration there is, not `resetTime - now`. -/
theorem fetchAll_sleep_is_clamped :
    (fetchAllReleasesFromGithub farResetEnv 2 boshSource emptyWorld).map
        (fun x => (x.1.2, x.2.log))
      = some (none,
          [.logDebug (.fetching boshSource),
           .listReleases "cloudfoundry" "bosh" { PerPage := 30, Page := 0 } none,
           .now 0,
           .logDebug (.sleeping 9223372036854775807),
           .sleep 9223372036854775807,
           .listReleases "cloudfoundry" "bosh" { PerPage := 30, Page := 2 } none,
           .logDebug (.leftWith 200)]) ∧
    (9223372036854776808 : Int) - 0 ≠ 9223372036854775807 := by
  decide

/-- C7, amended. Whatever the service answers, a fetch that returns has issued its requests
one after the other, and after every successful response - before the next request, if
there is one - it has read the clock and slept exactly once when the reported remaining
quota is below 50, and has not slept at all when the quota is 50 or more.  The sleep lasts
`resetTime - now` whenever that difference fits the 64 bits of a duration, and the nearest
bound of that range otherwise (`BackoffAfter`).  When the service answers a chain of pages
to the end and the fuel suffices, the fetch does return, with that behaviour after each of
the pages. -/
theorem fetchAll_backoff (env : Env) (fuel : Nat) (ghSource : githubSource) (w : World) :
    (∀ (res : List RepositoryRelease × Option Error) (w1 : World),
      fetchAllReleasesFromGithub env fuel ghSource w = some (res, w1) →
      ∃ (ps : List Page) (segs : List (List Event)) (tail : List Event),
        Answers env ghSource.Owner ghSource.Repo (w.log.countP Event.isRequest) 0 ps ∧
        w1.log = w.log ++ .logDebug (.fetching ghSource)
          :: (fetchLog ghSource (0 :: ps.map (·.2.NextPage)) segs ++ tail) ∧
        List.Forall₂ BackoffAfter ps segs ∧
        (tail = [] ∨ ∃ pg err, tail = [.listReleases ghSource.Owner ghSource.Repo
          { PerPage := 30, Page := pg } (some err)])) ∧
    (∀ (init : List Page) (last : Page),
      Answers env ghSource.Owner ghSource.Repo (w.log.countP Event.isRequest) 0
        (init ++ [last]) →
      (∀ p ∈ init, p.2.NextPage ≠ 0) → last.2.NextPage = 0 → init.length + 1 ≤ fuel →
      ∃ (res : List RepositoryRelease × Option Error) (w1 : World)
        (segs : List (List Event)),
        fetchAllReleasesFromGithub env fuel ghSource w = some (res, w1) ∧
        w1.log = w.log ++ .logDebug (.fetching ghSource)
          :: fetchLog ghSource (0 :: init.map (·.2.NextPage)) segs ∧
        List.Forall₂ BackoffAfter (init ++ [last]) segs) := by
  constructor
  · intro res w1 h
    obtain ⟨r, hr1, hr2⟩ := fetchLoop_shape env ghSource fuel 0 []
      (w.log ++ [.logDebug (.fetching ghSource)])
    simp only [fetchAllReleasesFromGithub, logDebug, emit] at h
    rw [hr1 w.notes] at h
    cases r with
    | none => simp at h
    | some x =>
      simp only [Option.map_some', Option.some.injEq, Prod.mk.injEq] at h
      obtain ⟨-, ps, segs, tail, ha, he, hf, ht⟩ := hr2 x rfl
      refine ⟨ps, segs, tail, ?_, ?_, hf, ?_⟩
      · simpa [List.countP_append, Event.isRequest] using ha
      · rw [← h.2, he]
        simp
      · rcases ht with ⟨ht, -⟩ | ⟨pg, err, ht, -⟩
        · exact Or.inl ht
        · exact Or.inr ⟨pg, err, ht⟩
  · intro init last hans hnext hlast hfuel
    obtain ⟨segs, h1, h2⟩ := fetchLoop_chain env ghSource last hlast init fuel 0 []
      (w.log ++ [.logDebug (.fetching ghSource)]) w.notes
      (by simpa [List.countP_append, Event.isRequest] using hans) hnext hfuel
    refine ⟨([] ++ ((init ++ [last]).map Prod.fst).flatten, none),
      World.mk w.notes (w.log ++ [Event.logDebug (.fetching ghSource)] ++
        fetchLog ghSource (0 :: init.map (·.2.NextPage)) segs), segs, ?_, ?_, h2⟩
    · simp only [fetchAllReleasesFromGithub, logDebug, emit]
      exact h1
    · simp

/-- C7 amended, on a run with quota 10 after the first page and 200 after the second: one
sleep of 1000 - 400 before the second request, none before the third. -/
theorem fetchAll_backoff_witness :
    fetchAllReleasesFromGithub lowQuotaEnv 3 boshSource emptyWorld
      = some (([sampleRelease], some (.wrap (.raw "unavailable") .listingGithubReleases)),
          { notes := emptyWorld.notes, log := lowQuotaLog }) ∧
    sleepsOf lowQuotaLog = [1000 - 400] ∧
    ∃ (ps : List Page) (segs : List (List Event)) (tail : List Event),
      Answers lowQuotaEnv boshSource.Owner boshSource.Repo
        (emptyWorld.log.countP Event.isRequest) 0 ps ∧
      lowQuotaLog = emptyWorld.log ++ .logDebug (.fetching boshSource)
        :: (fetchLog boshSource (0 :: ps.map (·.2.NextPage)) segs ++ tail) ∧
      List.Forall₂ BackoffAfter ps segs ∧
      (tail = [] ∨ ∃ pg err, tail = [.listReleases boshSource.Owner boshSource.Repo
        { PerPage := 30, Page := pg } (some err)]) :=
  ⟨rfl, by decide, (fetchAll_backoff lowQuotaEnv 3 boshSource emptyWorld).1 _
    { notes := emptyWorld.notes, log := lowQuotaLog } rfl⟩

/-! ## The matcher -/

theorem SetNotes_eq (env : Env) (r : ReleaseVersionRec) (note : NoteRec)
    (n : ReleaseVersionRec → NoteRec) (l : List Event) :
    SetNotes env r note { notes := n, log := l }
      = (env.SetNotes (l.countP Event.isSetNotes) r note,
          advance [.setNotes r note (env.SetNotes (l.countP Event.isSetNotes) r note)]
            { notes := n, log := l }) := by
  unfold SetNotes
  cases h : env.SetNotes (l.countP Event.isSetNotes) r note <;>
    simp [h, advance, applyEvents, applyEvent, emit]

/-- The scan for one record: nothing when no release carries its label, otherwise one
`SetNotes` with the note of the first release that does. -/
theorem scanReleases_eq (env : Env) (r : ReleaseVersionRec) :
    ∀ (rels : List RepositoryRelease) (n : ReleaseVersionRec → NoteRec) (l : List Event),
      scanReleases env r rels { notes := n, log := l }
        = match firstMatch r rels with
          | none => (none, { notes := n, log := l })
          | some rel =>
            ((env.SetNotes (l.countP Event.isSetNotes) r (noteOf rel)).map
                (fun e => Error.wrap e (.savingNotes r)),
              advance [.setNotes r (noteOf rel)
                (env.SetNotes (l.countP Event.isSetNotes) r (noteOf rel))]
                { notes := n, log := l }) := by
  intro rels
  induction rels with
  | nil => intro n l; simp [scanReleases, firstMatch]
  | cons rel rest ih =>
    intro n l
    have hcond : (rel.Name.isSome && rel.Name == some ("v" ++ r.VersionRaw) ||
        rel.TagName.isSome && rel.TagName == some ("v" ++ r.VersionRaw))
        = labelMatches r rel := by
      unfold labelMatches
      rw [Bool.eq_iff_iff]
      cases rel.Name <;> cases rel.TagName <;> simp
    unfold scanReleases
    simp only [hcond]
    by_cases hm : labelMatches r rel = true
    · have hnote : (match rel.Body with
          | some body => ({ Content := body } : NoteRec)
          | none => { Content := "" }) = noteOf rel := by
        unfold noteOf
        cases rel.Body <;> rfl
      simp only [hm, if_true, hnote, firstMatch, List.find?_cons_of_pos, SetNotes_eq]
      cases env.SetNotes (l.countP Event.isSetNotes) r (noteOf rel) <;> rfl
    · simp only [hm, firstMatch, Bool.false_eq_true, if_false]
      rw [ih n l]
      simp [firstMatch, List.find?_cons, hm]


theorem applyEvents_append (a b : List Event) (n : ReleaseVersionRec → NoteRec) :
    applyEvents (a ++ b) n = applyEvents b (applyEvents a n) := by
  induction a generalizing n with
  | nil => rfl
  | cons e a ih => simp [applyEvents, ih]

theorem advance_nil (w : World) : advance [] w = w := by
  simp [advance, applyEvents]

theorem advance_append (a b : List Event) (w : World) :
    advance (a ++ b) w = advance b (advance a w) := by
  simp [advance, applyEvents_append]

theorem advance_cons (e : Event) (b : List Event) (w : World) :
    advance (e :: b) w = advance b (advance [e] w) :=
  advance_append [e] b w

/-- Calls that save nothing for `r` leave the notes of `r` as they were. -/
theorem applyEvents_frame (r : ReleaseVersionRec) :
    ∀ (evs : List Event) (n : ReleaseVersionRec → NoteRec),
      (∀ note, Event.setNotes r note none ∉ evs) → applyEvents evs n r = n r := by
  intro evs
  induction evs with
  | nil => intro n _; rfl
  | cons e evs ih =>
    intro n h
    simp only [applyEvents]
    rw [ih _ (fun note hm => h note (by simp [hm]))]
    cases e with
    | setNotes r1 note out =>
      cases out with
      | some _ => rfl
      | none =>
        have hne : r ≠ r1 := by
          rintro rfl
          exact h note (by simp)
        simp [applyEvent, setNote, hne]
    | _ => rfl

/-- Calls that are not `SetNotes` leave the note store as it was. -/
theorem applyEvents_quiet (evs : List Event) (n : ReleaseVersionRec → NoteRec)
    (h : ∀ e ∈ evs, e.isCatalog = false) : applyEvents evs n = n := by
  funext r
  apply applyEvents_frame
  intro note hm
  have := h _ hm
  simp [Event.isCatalog] at this

/-- When every successful save for `r` among the calls stores `x`, and either there is one
or the notes of `r` are `x` already, the notes of `r` are `x` afterwards. -/
theorem applyEvents_const (r : ReleaseVersionRec) (x : NoteRec) :
    ∀ (evs : List Event) (n : ReleaseVersionRec → NoteRec),
      (∀ note, Event.setNotes r note none ∈ evs → note = x) →
      (n r = x ∨ ∃ note, Event.setNotes r note none ∈ evs) →
      applyEvents evs n r = x := by
  intro evs
  induction evs with
  | nil =>
    intro n _ h
    rcases h with h | ⟨note, h⟩
    · exact h
    · simp at h
  | cons e evs ih =>
    intro n hall hex
    simp only [applyEvents]
    apply ih _ (fun note hm => hall note (by simp [hm]))
    by_cases he : ∃ note, e = Event.setNotes r note none
    · obtain ⟨note, rfl⟩ := he
      left
      have := hall note (by simp)
      simp [applyEvent, setNote, this]
    · rcases hex with h | ⟨note, h⟩
      · left
        rw [← h]
        cases e with
        | setNotes r1 note out =>
          cases out with
          | some _ => rfl
          | none =>
            have hne : r ≠ r1 := by
              rintro rfl
              exact he ⟨note, rfl⟩
            simp [applyEvent, setNote, hne]
        | _ => rfl
      · rcases List.mem_cons.1 h with h | h
        · exact absurd ⟨note, h.symm⟩ he
        · exact Or.inr ⟨note, h⟩

/-- The pass over the records of one source: its result and its calls do not depend on the
note store; every call is a `SetNotes` for a record of the list with the note of the first
release carrying its label, logged with the outcome the catalog gave; the pass returns an error exactly when one of these calls
failed, and the error names that record; a pass without error has saved every record that
has such a release. -/
theorem importLoop_shape (env : Env) (rels : List RepositoryRelease) :
    ∀ (recs : List ReleaseVersionRec) (l : List Event),
      ∃ (err : Option Error) (evs : List Event),
        (∀ n, importLoop env rels recs { notes := n, log := l }
          = (err, advance evs { notes := n, log := l })) ∧
        (∀ e ∈ evs, ∃ r ∈ recs, ∃ rel k,
          firstMatch r rels = some rel ∧
            e = .setNotes r (noteOf rel) (env.SetNotes k r (noteOf rel))) ∧
        (err.isSome = true ↔ ∃ e ∈ evs, e.isFatal = true) ∧
        (∀ e, err = some e → ∃ r ∈ recs, ∃ rel cause,
          firstMatch r rels = some rel ∧ e = .wrap cause (.savingNotes r)) ∧
        (err = none → ∀ r ∈ recs, ∀ rel, firstMatch r rels = some rel →
          Event.setNotes r (noteOf rel) none ∈ evs) := by
  intro recs
  induction recs with
  | nil =>
    intro l
    exact ⟨none, [], fun n => by simp [importLoop, advance_nil], by simp, by simp, by simp,
      by simp⟩
  | cons r rest ih =>
    intro l
    cases hm : firstMatch r rels with
    | none =>
      obtain ⟨err, evs, h1, h2, h3, h4, h5⟩ := ih l
      refine ⟨err, evs, fun n => ?_, ?_, h3, ?_, ?_⟩
      · simp only [importLoop, scanReleases_eq, hm]
        exact h1 n
      · intro e he
        obtain ⟨r1, hr1, rest1⟩ := h2 e he
        exact ⟨r1, by simp [hr1], rest1⟩
      · intro e he
        obtain ⟨r1, hr1, rest1⟩ := h4 e he
        exact ⟨r1, by simp [hr1], rest1⟩
      · intro hn r1 hr1 rel hrel
        rcases List.mem_cons.1 hr1 with rfl | hr1
        · rw [hm] at hrel
          exact absurd hrel (by simp)
        · exact h5 hn r1 hr1 rel hrel
    | some rel =>
      cases ho : env.SetNotes (l.countP Event.isSetNotes) r (noteOf rel) with
      | some cause =>
        refine ⟨some (.wrap cause (.savingNotes r)), [.setNotes r (noteOf rel) (some cause)],
          fun n => ?_, ?_, ?_, ?_, ?_⟩
        · simp only [importLoop, scanReleases_eq, hm, ho, Option.map_some']
        · intro e he
          simp only [List.mem_singleton] at he
          exact ⟨r, by simp, rel, l.countP Event.isSetNotes, hm, by rw [ho]; exact he⟩
        · simp [Event.isFatal]
        · intro e he
          exact ⟨r, by simp, rel, cause, hm, (Option.some.inj he).symm⟩
        · intro hn
          simp at hn
      | none =>
        obtain ⟨err, evs, h1, h2, h3, h4, h5⟩ := ih (l ++ [.setNotes r (noteOf rel) none])
        refine ⟨err, .setNotes r (noteOf rel) none :: evs, fun n => ?_, ?_, ?_, ?_, ?_⟩
        · simp only [importLoop, scanReleases_eq, hm, ho, Option.map_none']
          rw [advance_cons _ evs]
          exact h1 (applyEvents [.setNotes r (noteOf rel) none] n)
        · intro e he
          rcases List.mem_cons.1 he with rfl | he
          · exact ⟨r, by simp, rel, l.countP Event.isSetNotes, hm, by rw [ho]⟩
          · obtain ⟨r1, hr1, rest1⟩ := h2 e he
            exact ⟨r1, by simp [hr1], rest1⟩
        · rw [h3]
          simp [Event.isFatal]
        · intro e he
          obtain ⟨r1, hr1, rest1⟩ := h4 e he
          exact ⟨r1, by simp [hr1], rest1⟩
        · intro hn r1 hr1 rel1 hrel
          rcases List.mem_cons.1 hr1 with rfl | hr1
          · rw [hm] at hrel
            obtain rfl := Option.some.inj hrel
            simp
          · exact List.mem_cons_of_mem _ (h5 hn r1 hr1 rel1 hrel)


theorem importLoop_append (env : Env) (rels : List RepositoryRelease) :
    ∀ (pre post : List ReleaseVersionRec) (w : World),
      importLoop env rels (pre ++ post) w
        = match importLoop env rels pre w with
          | (some err, w1) => (some err, w1)
          | (none, w1) => importLoop env rels post w1 := by
  intro pre
  induction pre with
  | nil => intro post w; simp [importLoop]
  | cons r pre ih =>
    intro post w
    simp only [List.cons_append, importLoop]
    rcases hs : scanReleases env r rels w with ⟨_ | err, w1⟩
    · exact ih post w1
    · simp

/-- The fetch as a function of the call log alone. -/
theorem fetchAll_shape (env : Env) (fuel : Nat) (ghSource : githubSource) (l : List Event) :
    ∃ r : Option ((List RepositoryRelease × Option Error) × List Event),
      (∀ n : ReleaseVersionRec → NoteRec,
        fetchAllReleasesFromGithub env fuel ghSource { notes := n, log := l }
          = r.map fun x => (x.1, advance x.2 { notes := n, log := l })) ∧
      ∀ x, r = some x → ∀ e ∈ x.2, e.isCatalog = false := by
  obtain ⟨r, hr1, hr2⟩ := fetchLoop_shape env ghSource fuel 0 []
    (l ++ [.logDebug (.fetching ghSource)])
  have hq : ∀ x, r = some x →
      ∀ e ∈ Event.logDebug (.fetching ghSource) :: x.2, e.isCatalog = false := by
    intro x hx e he
    rcases List.mem_cons.1 he with rfl | he
    · rfl
    · exact (hr2 x hx).1 e he
  refine ⟨r.map fun x => (x.1, .logDebug (.fetching ghSource) :: x.2), fun n => ?_, ?_⟩
  · simp only [fetchAllReleasesFromGithub, logDebug, emit]
    rw [hr1 n]
    cases r with
    | none => rfl
    | some x =>
      simp only [Option.map_some', advance, applyEvents_quiet _ n (hq x rfl)]
      simp
  · intro x hx
    cases r with
    | none => simp at hx
    | some y =>
      simp only [Option.map_some', Option.some.injEq] at hx
      subst hx
      exact hq y rfl

/-- What a sequence of calls stores depends on the earlier store only at the records it
does not save. -/
theorem applyEvents_congr :
    ∀ (evs : List Event) (n m : ReleaseVersionRec → NoteRec),
      (∀ r, (∀ note, Event.setNotes r note none ∉ evs) → n r = m r) →
      applyEvents evs n = applyEvents evs m := by
  intro evs
  induction evs with
  | nil =>
    intro n m h
    funext r
    exact h r (by simp)
  | cons e evs ih =>
    intro n m h
    simp only [applyEvents]
    apply ih
    intro r hr
    by_cases he : ∃ note, e = Event.setNotes r note none
    · obtain ⟨note, rfl⟩ := he
      simp [applyEvent, setNote]
    · have hnm : n r = m r := by
        apply h
        intro note hm
        rcases List.mem_cons.1 hm with hm | hm
        · exact he ⟨note, hm.symm⟩
        · exact hr note hm
      cases e with
      | setNotes r1 note out =>
        cases out with
        | some _ => exact hnm
        | none =>
          have hne : r ≠ r1 := by
            rintro rfl
            exact he ⟨note, rfl⟩
          simp [applyEvent, setNote, hne, hnm]
      | _ => exact hnm

theorem applyEvents_idem (evs : List Event) (n : ReleaseVersionRec → NoteRec) :
    applyEvents evs (applyEvents evs n) = applyEvents evs n :=
  applyEvents_congr evs _ _ fun r hr => applyEvents_frame r evs n hr

/-! ## The matcher within `importNotesForRelease` -/

/-- A fetch that returns leaves the note store alone and only appends calls that are not
catalog calls. -/
theorem fetchAll_frame (env : Env) (fuel : Nat) (ghSource : githubSource) (w w1 : World)
    (res : List RepositoryRelease × Option Error)
    (h : fetchAllReleasesFromGithub env fuel ghSource w = some (res, w1)) :
    ∃ evs : List Event, (∀ e ∈ evs, e.isCatalog = false) ∧
      w1 = { notes := w.notes, log := w.log ++ evs } := by
  obtain ⟨r, h1, h2⟩ := fetchAll_shape env fuel ghSource w.log
  have h1w := h1 w.notes
  change fetchAllReleasesFromGithub env fuel ghSource w = _ at h1w
  rw [h] at h1w
  cases r with
  | none => simp at h1w
  | some x =>
    simp only [Option.map_some', Option.some.injEq, Prod.mk.injEq] at h1w
    refine ⟨x.2, h2 x rfl, ?_⟩
    rw [h1w.2]
    simp [advance, applyEvents_quiet _ _ (h2 x rfl)]

theorem firstMatch_eq_none (r : ReleaseVersionRec) (rels : List RepositoryRelease)
    (hno : ∀ rel ∈ rels, rel.Name ≠ some ("v" ++ r.VersionRaw) ∧
      rel.TagName ≠ some ("v" ++ r.VersionRaw)) :
    firstMatch r rels = none := by
  unfold firstMatch
  rw [List.find?_eq_none]
  intro rel hrel
  simp [labelMatches, (hno rel hrel).1, (hno rel hrel).2]

/-- C2. When the fetch has returned a release list in which no release has the name or the
tag name "v" ++ VersionRaw of a record `r` of the list, `importNotesForRelease` returns,
none of its calls is a `SetNotes` on `r`, the notes of `r` are what they were, the scan for
`r` returns no error and changes nothing, and an error returned by the pass is about
another record. -/
theorem importNotes_no_match (env : Env) (fuel : Nat) (ghSource : githubSource)
    (recs : List ReleaseVersionRec) (w w1 : World) (rels : List RepositoryRelease)
    (r : ReleaseVersionRec)
    (hfetch : fetchAllReleasesFromGithub env fuel ghSource w = some ((rels, none), w1))
    (hr : r ∈ recs)
    (hno : ∀ rel ∈ rels, rel.Name ≠ some ("v" ++ r.VersionRaw) ∧
      rel.TagName ≠ some ("v" ++ r.VersionRaw)) :
    ∃ (err : Option Error) (w2 : World) (evs : List Event),
      importNotesForRelease env fuel ghSource recs w = some (err, w2) ∧
      w2.log = w.log ++ evs ∧
      (∀ note out, Event.setNotes r note out ∉ evs) ∧
      w2.notes r = w.notes r ∧
      (∀ w0 : World, scanReleases env r rels w0 = (none, w0)) ∧
      (∀ e, err = some e → ∃ r1 ∈ recs, r1 ≠ r ∧ ∃ cause, e = .wrap cause (.savingNotes r1)) := by
  have hnone := firstMatch_eq_none r rels hno
  obtain ⟨evs0, hq0, rfl⟩ := fetchAll_frame env fuel ghSource w w1 _ hfetch
  obtain ⟨err, evs1, h1, h2, -, h4, -⟩ := importLoop_shape env rels recs (w.log ++ evs0)
  have hlen : recs.length ≠ 0 := by
    intro h0
    rw [List.length_eq_zero] at h0
    simp [h0] at hr
  have hnot1 : ∀ note out, Event.setNotes r note out ∉ evs1 := by
    intro note out hmem
    obtain ⟨r1, -, rel, out1, hfm, he⟩ := h2 _ hmem
    simp only [Event.setNotes.injEq] at he
    rw [← he.1, hnone] at hfm
    simp at hfm
  refine ⟨err, advance evs1 { notes := w.notes, log := w.log ++ evs0 }, evs0 ++ evs1,
    ?_, ?_, ?_, ?_, ?_, ?_⟩
  · simp only [importNotesForRelease, hlen, if_false, hfetch]
    rw [h1]
  · simp [advance]
  · intro note out hmem
    rcases List.mem_append.1 hmem with hmem | hmem
    · have := hq0 _ hmem
      simp [Event.isCatalog] at this
    · exact hnot1 note out hmem
  · simp only [advance]
    exact applyEvents_frame r evs1 w.notes (fun note => hnot1 note none)
  · intro w0
    have := scanReleases_eq env r rels w0.notes w0.log
    rw [hnone] at this
    exact this
  · intro e he
    obtain ⟨r1, hr1, rel, cause, hfm, hecause⟩ := h4 e he
    refine ⟨r1, hr1, ?_, cause, hecause⟩
    rintro rfl
    rw [hnone] at hfm
    simp at hfm

/-- C2 on the record `recA` against the releases of `srcB`, none of which carries its
label. -/
theorem importNotes_no_match_witness :
    fetchAllReleasesFromGithub isolationEnv 1 boshSource staleWorld
      = some (([sampleRelease, release2], none),
          { notes := staleWorld.notes, log := boshFetchLog }) ∧
    ∃ (err : Option Error) (w2 : World) (evs : List Event),
      importNotesForRelease isolationEnv 1 boshSource [recA, recB1] staleWorld
        = some (err, w2) ∧
      w2.log = staleWorld.log ++ evs ∧
      (∀ note out, Event.setNotes recA note out ∉ evs) ∧
      w2.notes recA = staleWorld.notes recA ∧
      (∀ w0 : World,
        scanReleases isolationEnv recA [sampleRelease, release2] w0 = (none, w0)) ∧
      (∀ e, err = some e →
        ∃ r1 ∈ [recA, recB1], r1 ≠ recA ∧ ∃ cause, e = .wrap cause (.savingNotes r1)) :=
  ⟨rfl, importNotes_no_match isolationEnv 1 boshSource [recA, recB1] staleWorld
    { notes := staleWorld.notes, log := boshFetchLog } [sampleRelease, release2] recA rfl
    (by decide) (by decide)⟩


/-- C1, as stated, fails: both records have a release carrying their label, but the save
for the first one fails, the pass returns that error, and `SetNotes` is never called on the
second record. -/
theorem importNotes_stops_at_failed_save :
    (fetchAllReleasesFromGithub writeFailEnv 1 boshSource emptyWorld).map (fun x => x.1)
      = some ([sampleRelease, release2], none) ∧
    firstMatch recB2 [sampleRelease, release2] = some release2 ∧
    (importNotesForRelease writeFailEnv 1 boshSource [recB1, recB2] emptyWorld).map
        (fun x => (x.1, setNotesOf x.2.log))
      = some (some (.wrap (.raw "disk full") (.savingNotes recB1)),
          [(recB1, { Content := "first release" }, some (.raw "disk full"))]) := by
  decide

/-- C1, amended. Let the fetch have returned the release list `rels`, let `rel` be the first
release of `rels` whose name or tag name is "v" ++ VersionRaw of the record `r`, and let the
pass over the records before `r` have ended without a failed save, in the world `w2`.  Then
`importNotesForRelease` returns, and in the iteration for `r` it makes exactly one call:
`SetNotes` on `r` with the body of `rel`, or the empty string when the body is absent; all
later calls belong to later records.  When that call returns no error the notes of `r` after
the pass are that content, whatever they were before. -/
theorem importNotes_first_match (env : Env) (fuel : Nat) (ghSource : githubSource)
    (pre : List ReleaseVersionRec) (r : ReleaseVersionRec) (post : List ReleaseVersionRec)
    (w w1 w2 : World) (rels : List RepositoryRelease) (rel : RepositoryRelease)
    (hfetch : fetchAllReleasesFromGithub env fuel ghSource w = some ((rels, none), w1))
    (hpre : importLoop env rels pre w1 = (none, w2))
    (hm : firstMatch r rels = some rel) :
    ∃ (err : Option Error) (w3 : World) (evsPost : List Event),
      importNotesForRelease env fuel ghSource (pre ++ r :: post) w = some (err, w3) ∧
      w3.log = w2.log ++
        Event.setNotes r { Content := rel.Body.getD "" }
          (env.SetNotes (w2.log.countP Event.isSetNotes) r { Content := rel.Body.getD "" })
        :: evsPost ∧
      (∀ e ∈ evsPost, ∃ r1 ∈ post, ∃ note out, e = .setNotes r1 note out) ∧
      (env.SetNotes (w2.log.countP Event.isSetNotes) r { Content := rel.Body.getD "" } = none →
        w3.notes r = { Content := rel.Body.getD "" }) := by
  have hlen : (pre ++ r :: post).length ≠ 0 := by simp
  have himp : importNotesForRelease env fuel ghSource (pre ++ r :: post) w
      = some (importLoop env rels (r :: post) w2) := by
    simp only [importNotesForRelease, hlen, if_false, hfetch]
    rw [importLoop_append, hpre]
  have hscan := scanReleases_eq env r rels w2.notes w2.log
  rw [hm] at hscan
  change scanReleases env r rels w2 = _ at hscan
  simp only [noteOf] at hscan
  cases ho : env.SetNotes (w2.log.countP Event.isSetNotes) r { Content := rel.Body.getD "" } with
  | some cause =>
    refine ⟨some (.wrap cause (.savingNotes r)),
      advance [.setNotes r { Content := rel.Body.getD "" } (some cause)] w2, [],
      ?_, ?_, by simp, by simp⟩
    · rw [himp]
      simp only [importLoop, hscan, ho, Option.map_some']
    · simp [advance]
  | none =>
    obtain ⟨err, evs, h1, h2, -, -, -⟩ := importLoop_shape env rels post
      (w2.log ++ [.setNotes r { Content := rel.Body.getD "" } none])
    refine ⟨err, advance evs
      { notes := applyEvents [.setNotes r { Content := rel.Body.getD "" } none] w2.notes,
        log := w2.log ++ [.setNotes r { Content := rel.Body.getD "" } none] }, evs,
      ?_, ?_, ?_, ?_⟩
    · rw [himp]
      simp only [importLoop, hscan, ho, Option.map_none']
      exact congrArg some (h1 _)
    · simp [advance]
    · intro e he
      obtain ⟨r1, hr1, rel1, k, -, he1⟩ := h2 e he
      exact ⟨r1, hr1, _, _, he1⟩
    · intro _
      simp only [advance]
      apply applyEvents_const
      · intro note hmem
        obtain ⟨r1, -, rel1, out, hfm, he1⟩ := h2 _ hmem
        simp only [Event.setNotes.injEq] at he1
        rw [← he1.1, hm] at hfm
        obtain rfl := Option.some.inj hfm
        rw [he1.2.1]
        rfl
      · left
        simp [applyEvents, applyEvent, setNote]

/-- C1 amended, on the second record of `srcB`: its first matching release has no body, so
its notes, "stale" before, are empty afterwards, after exactly one `SetNotes` on it. -/
theorem importNotes_first_match_witness :
    firstMatch recB2 [sampleRelease, release2] = some release2 ∧
    staleWorld.notes recB2 = { Content := "stale" } ∧
    ∃ (err : Option Error) (w3 : World),
      importNotesForRelease isolationEnv 1 boshSource [recB1, recB2] staleWorld
        = some (err, w3) ∧
      w3.log = boshFetchLog ++
        [.setNotes recB1 { Content := "first release" } none,
         .setNotes recB2 { Content := "" } none] ∧
      w3.notes recB2 = { Content := "" } := by
  obtain ⟨err, w3, evsPost, h1, h2, h3, h4⟩ :=
    importNotes_first_match isolationEnv 1 boshSource [recB1] recB2 [] staleWorld
      { notes := staleWorld.notes, log := boshFetchLog }
      { notes := setNote staleWorld.notes recB1 { Content := "first release" },
        log := boshFetchLog ++ [.setNotes recB1 { Content := "first release" } none] }
      [sampleRelease, release2] release2 rfl rfl rfl
  have hnil : evsPost = [] := by
    cases evsPost with
    | nil => rfl
    | cons e es =>
      obtain ⟨r1, hr1, -⟩ := h3 e (by simp)
      simp at hr1
  subst hnil
  exact ⟨by decide, rfl, err, w3, h1, h2, h4 rfl⟩


/-! ## Sources without records, and sources whose fetch fails -/

theorem syncLoop_append (env : Env) (fuel : Nat) :
    ∀ (pre post : List Source) (w : World),
      syncLoop env fuel (pre ++ post) w
        = match syncLoop env fuel pre w with
          | some (none, w1) => syncLoop env fuel post w1
          | other => other := by
  intro pre
  induction pre with
  | nil => intro post w; simp [syncLoop]
  | cons source pre ih =>
    intro post w
    simp only [List.cons_append, syncLoop]
    rcases newGithubSource source with ⟨gh, _ | _⟩
    · exact ih post w
    · simp only
      rcases FindAll env source.Full w with ⟨_ | recs, w1⟩
      · rfl
      · simp only
        rcases importNotesForRelease env fuel gh recs w1 with _ | ⟨_ | err, w2⟩
        · rfl
        · exact ih post w2
        · rfl

/-- C9. Let the catalog list the sources `pre ++ source :: post`, let the pass over `pre`
have ended without error in the world `w1`, and let `source`, when it resolves as supported,
have no version records.  Then `Sync` goes on with the sources `post` in a world that
differs from `w1` by the `FindAll` call alone (by nothing for an unsupported source): no
page request and no save is made for `source`.  `importNotesForRelease` on an empty list
returns at once, without a call, whatever the fuel. -/
theorem Sync_fast_path (env : Env) (fuel : Nat) (w : World) (pre : List Source)
    (source : Source) (post : List Source) (w1 : World)
    (hlist : env.ListAll (w.log.countP Event.isListAll) = .ok (pre ++ source :: post))
    (hpre : syncLoop env fuel pre (emit (.listAll none) w) = some (none, w1))
    (hfind : (newGithubSource source).2 = true →
      env.FindAll (w1.log.countP Event.isFindAll) source.Full = .ok []) :
    Sync env fuel w
      = syncLoop env fuel post
          (if (newGithubSource source).2 = true then emit (.findAll source.Full none) w1
            else w1) ∧
    ∀ (f : Nat) (gh : githubSource) (w0 : World),
      importNotesForRelease env f gh [] w0 = some (none, w0) := by
  have himp : ∀ (f : Nat) (gh : githubSource) (w0 : World),
      importNotesForRelease env f gh [] w0 = some (none, w0) := by
    intro f gh w0
    simp [importNotesForRelease]
  refine ⟨?_, himp⟩
  simp only [Sync, ListAll, hlist, errOf]
  rw [syncLoop_append, hpre]
  simp only [syncLoop]
  rcases hns : newGithubSource source with ⟨gh, _ | _⟩
  · simp
  · rw [hns] at hfind
    simp only [FindAll, hfind rfl, errOf, himp, if_true]

/-- C9 on a catalog whose one source has no records: `Sync` returns without fuel for any
page request, after the calls `ListAll` and `FindAll` alone. -/
theorem Sync_fast_path_witness :
    Sync emptySourceEnv 0 emptyWorld
      = some (none, { notes := emptyWorld.notes,
                      log := [.listAll none, .findAll "github.com/acme/broken" none] }) ∧
    ∀ (f : Nat) (gh : githubSource) (w0 : World),
      importNotesForRelease emptySourceEnv f gh [] w0 = some (none, w0) :=
  ⟨(Sync_fast_path emptySourceEnv 0 emptyWorld [] srcA [] (emit (.listAll none) emptyWorld)
      rfl rfl (fun _ => rfl)).1.trans rfl,
    (Sync_fast_path emptySourceEnv 0 emptyWorld [] srcA [] (emit (.listAll none) emptyWorld)
      rfl rfl (fun _ => rfl)).2⟩


/-- With enough fuel, a service that answers some pages, each announcing a next page, and
then fails makes the fetch loop return that failure. -/
theorem fetchLoop_chain_fails (env : Env) (ghSource : githubSource) (err : Error) :
    ∀ (ps : List Page) (fuel : Nat) (page : Int) (acc : List RepositoryRelease)
      (l : List Event) (n : ReleaseVersionRec → NoteRec),
      Answers env ghSource.Owner ghSource.Repo (l.countP Event.isRequest) page ps →
      (∀ p ∈ ps, p.2.NextPage ≠ 0) →
      env.ListReleases (l.countP Event.isRequest + ps.length) ghSource.Owner ghSource.Repo
        { PerPage := 30, Page := nextPageAfter page ps } = .error err →
      ps.length + 1 ≤ fuel →
      ∃ (evs : List Event) (rels : List RepositoryRelease),
        (∀ e ∈ evs, e.isCatalog = false) ∧
        evs.countP Event.isRequest = ps.length + 1 ∧
        fetchLoop env ghSource fuel { PerPage := 30, Page := page } acc
            { notes := n, log := l }
          = some ((rels, some (.wrap err .listingGithubReleases)),
              { notes := n, log := l ++ evs }) := by
  intro ps
  induction ps with
  | nil =>
    intro fuel page acc l n _ _ hfail hfuel
    obtain ⟨f, rfl⟩ : ∃ f, fuel = f + 1 := ⟨fuel - 1, by omega⟩
    simp only [List.length_nil, Nat.add_zero, nextPageAfter] at hfail
    exact ⟨_, acc, by simp [Event.isCatalog], by simp [Event.isRequest],
      fetchLoop_error env ghSource f page acc l err hfail n⟩
  | cons p ps ih =>
    intro fuel page acc l n hans hnext hfail hfuel
    obtain ⟨f, rfl⟩ : ∃ f, fuel = f + 1 := ⟨fuel - 1, by simp at hfuel; omega⟩
    obtain ⟨rels, resp⟩ := p
    simp only [Answers] at hans
    obtain ⟨hans1, hans2⟩ := hans
    have hnp : resp.NextPage ≠ 0 := hnext (rels, resp) (by simp)
    obtain ⟨seg, hb, hcat, hstep⟩ := fetchLoop_step env ghSource f page acc l rels resp hans1
    have hcount := countP_request_seg l seg
      (.listReleases ghSource.Owner ghSource.Repo { PerPage := 30, Page := page } none)
      rfl hb.1
    obtain ⟨evs, rels2, hq, hc, h1⟩ := ih f resp.NextPage (acc ++ rels)
      (l ++ (.listReleases ghSource.Owner ghSource.Repo { PerPage := 30, Page := page } none
        :: seg)) n
      (by rw [hcount]; exact hans2) (fun q hq => hnext q (by simp [hq]))
      (by
        rw [hcount]
        simp only [List.length_cons, nextPageAfter] at hfail
        rw [Nat.add_assoc, Nat.add_comm 1]
        exact hfail)
      (by simp at hfuel; omega)
    refine ⟨(.listReleases ghSource.Owner ghSource.Repo { PerPage := 30, Page := page } none
      :: seg) ++ evs, rels2, ?_, ?_, ?_⟩
    · intro e he
      rcases List.mem_append.1 he with he | he
      · rcases List.mem_cons.1 he with rfl | he
        · rfl
        · exact hcat e he
      · exact hq e he
    · have h0 := countP_request_seg [] seg
        (.listReleases ghSource.Owner ghSource.Repo { PerPage := 30, Page := page } none)
        rfl hb.1
      simp only [List.nil_append, List.countP_nil, Nat.zero_add] at h0
      rw [List.countP_append, h0, hc]
      simp only [List.length_cons]
      omega
    · rw [hstep n, if_neg hnp, h1, List.append_assoc]

theorem applyEvents_no_setNotes (evs : List Event) (n : ReleaseVersionRec → NoteRec)
    (h : ∀ e ∈ evs, e.isSetNotes = false) : applyEvents evs n = n := by
  funext r
  apply applyEvents_frame
  intro note hm
  have := h _ hm
  simp [Event.isSetNotes] at this

theorem not_setNotes_of_not_catalog (e : Event) (h : e.isCatalog = false) :
    e.isSetNotes = false := by
  cases e <;> simp_all [Event.isCatalog, Event.isSetNotes]

theorem countP_findAll_of_not_catalog (evs : List Event)
    (h : ∀ e ∈ evs, e.isCatalog = false) : evs.countP Event.isFindAll = 0 := by
  rw [List.countP_eq_zero]
  intro e he
  have := h e he
  cases e <;> simp_all [Event.isCatalog, Event.isFindAll]

theorem countP_request_fetchLog (ghSource : githubSource) :
    ∀ (pages : List Int) (segs : List (List Event)), pages.length = segs.length →
      (∀ seg ∈ segs, ∀ e ∈ seg, e.isRequest = false) →
      (fetchLog ghSource pages segs).countP Event.isRequest = pages.length := by
  intro pages
  induction pages with
  | nil => intro segs _ _; simp [fetchLog]
  | cons pg pages ih =>
    intro segs hlen hq
    cases segs with
    | nil => simp at hlen
    | cons seg segs =>
      have h0 := countP_request_seg [] seg
        (.listReleases ghSource.Owner ghSource.Repo { PerPage := 30, Page := pg } none)
        rfl (hq seg (by simp))
      simp only [List.nil_append, List.countP_nil, Nat.zero_add] at h0
      rw [fetchLog_cons, List.countP_append, h0,
        ih segs (by simpa using hlen) (fun s hs => hq s (by simp [hs]))]
      simp only [List.length_cons]
      omega

/-- A supported source with records whose fetch fails: the loop of `Sync` goes on with the
next source after one `FindAll`, the page requests and no `SetNotes`. -/
theorem syncLoop_failed_fetch (env : Env) (fuel : Nat) (source : Source)
    (ghSource : githubSource) (recs : List ReleaseVersionRec) (ps : List Page) (err : Error)
    (rest : List Source) (n : ReleaseVersionRec → NoteRec) (l : List Event)
    (hvalid : newGithubSource source = (ghSource, true))
    (hfind : env.FindAll (l.countP Event.isFindAll) source.Full = .ok recs) (hne : recs ≠ [])
    (hpages : Answers env ghSource.Owner ghSource.Repo (l.countP Event.isRequest) 0 ps)
    (hnext : ∀ p ∈ ps, p.2.NextPage ≠ 0)
    (hfail : env.ListReleases (l.countP Event.isRequest + ps.length) ghSource.Owner
      ghSource.Repo { PerPage := 30, Page := nextPageAfter 0 ps } = .error err)
    (hfuel : ps.length + 1 ≤ fuel) :
    ∃ evs : List Event, (∀ e ∈ evs, e.isSetNotes = false) ∧
      evs.countP Event.isFindAll = 1 ∧ evs.countP Event.isRequest = ps.length + 1 ∧
      syncLoop env fuel (source :: rest) { notes := n, log := l }
        = syncLoop env fuel rest { notes := n, log := l ++ evs } := by
  have hlen : recs.length ≠ 0 := by
    intro h0
    exact hne (List.length_eq_zero.1 h0)
  have hcR : List.countP Event.isRequest
      (l ++ [Event.findAll source.Full none] ++ [Event.logDebug (.fetching ghSource)])
      = l.countP Event.isRequest := by
    simp [List.countP_append, Event.isRequest]
  obtain ⟨evs, rels, hq, hc, h1⟩ := fetchLoop_chain_fails env ghSource err ps fuel 0 []
    (l ++ [.findAll source.Full none] ++ [.logDebug (.fetching ghSource)]) n
    (by rw [hcR]; exact hpages) hnext (by rw [hcR]; exact hfail) hfuel
  refine ⟨[.findAll source.Full none, .logDebug (.fetching ghSource)] ++ evs
    ++ [.logError (.fetchFailed ghSource (.wrap err .listingGithubReleases))], ?_, ?_, ?_, ?_⟩
  · intro e he
    simp only [List.mem_append, List.mem_cons, List.mem_singleton, List.not_mem_nil,
      or_false] at he
    rcases he with ((rfl | rfl) | he) | rfl
    · rfl
    · rfl
    · exact not_setNotes_of_not_catalog e (hq e he)
    · rfl
  · simp [List.countP_append, List.countP_cons, Event.isFindAll,
      countP_findAll_of_not_catalog evs hq]
  · simp [List.countP_append, List.countP_cons, Event.isRequest, hc]
  · simp only [syncLoop, hvalid, FindAll, hfind, errOf, emit, importNotesForRelease, hlen,
      if_false, fetchAllReleasesFromGithub, logDebug, h1, logError]
    simp [List.append_assoc]

/-- A supported source whose fetch succeeds and whose saves succeed: the loop of `Sync` goes
on with the next source after one `FindAll`, the page requests and, for every record with a
release carrying its label, one save of the note of the first such release. -/
theorem syncLoop_saved (env : Env) (fuel : Nat) (source : Source) (ghSource : githubSource)
    (recs : List ReleaseVersionRec) (init : List Page) (last : Page)
    (rest : List Source) (n : ReleaseVersionRec → NoteRec) (l : List Event)
    (hvalid : newGithubSource source = (ghSource, true))
    (hfind : env.FindAll (l.countP Event.isFindAll) source.Full = .ok recs) (hne : recs ≠ [])
    (hpages : Answers env ghSource.Owner ghSource.Repo (l.countP Event.isRequest) 0
      (init ++ [last]))
    (hnext : ∀ p ∈ init, p.2.NextPage ≠ 0) (hlast : last.2.NextPage = 0)
    (hwrite : ∀ k r note, r ∈ recs → env.SetNotes k r note = none)
    (hfuel : init.length + 1 ≤ fuel) :
    ∃ evs : List Event,
      (∀ r note out, Event.setNotes r note out ∈ evs →
        out = none ∧ r ∈ recs ∧
          ∃ rel, firstMatch r ((init ++ [last]).map Prod.fst).flatten = some rel ∧
            note = noteOf rel) ∧
      (∀ r ∈ recs, ∀ rel, firstMatch r ((init ++ [last]).map Prod.fst).flatten = some rel →
        Event.setNotes r (noteOf rel) none ∈ evs) ∧
      evs.countP Event.isFindAll = 1 ∧ evs.countP Event.isRequest = init.length + 1 ∧
      syncLoop env fuel (source :: rest) { notes := n, log := l }
        = syncLoop env fuel rest (advance evs { notes := n, log := l }) := by
  have hlen : recs.length ≠ 0 := by
    intro h0
    exact hne (List.length_eq_zero.1 h0)
  have hcR : List.countP Event.isRequest
      (l ++ [Event.findAll source.Full none] ++ [Event.logDebug (.fetching ghSource)])
      = l.countP Event.isRequest := by
    simp [List.countP_append, Event.isRequest]
  obtain ⟨segs, hloop, hback⟩ := fetchLoop_chain env ghSource last hlast init fuel 0 []
    (l ++ [.findAll source.Full none] ++ [.logDebug (.fetching ghSource)]) n
    (by rw [hcR]; exact hpages) hnext hfuel
  have hfetch : fetchAllReleasesFromGithub env fuel ghSource
      { notes := n, log := l ++ [.findAll source.Full none] }
      = some ((((init ++ [last]).map Prod.fst).flatten, none),
          { notes := n,
            log := (l ++ [.findAll source.Full none]) ++ (.logDebug (.fetching ghSource) ::
              fetchLog ghSource (0 :: init.map (·.2.NextPage)) segs) }) := by
    simp only [fetchAllReleasesFromGithub, logDebug, emit]
    rw [hloop]
    simp
  obtain ⟨evs0, hq0, hw⟩ := fetchAll_frame env fuel ghSource _ _ _ hfetch
  have hevs0 : evs0 = .logDebug (.fetching ghSource) ::
      fetchLog ghSource (0 :: init.map (·.2.NextPage)) segs := by
    have := congrArg World.log hw
    simp only at this
    exact (List.append_cancel_left this).symm
  have hreq0 : evs0.countP Event.isRequest = init.length + 1 := by
    rw [hevs0, List.countP_cons, countP_request_fetchLog ghSource _ segs
      (by rw [← hback.length_eq]; simp) (forall₂_backoff_quiet _ _ hback)]
    simp [Event.isRequest]
  obtain ⟨err, evs1, h1, h2, h3, -, h5⟩ := importLoop_shape env
    ((init ++ [last]).map Prod.fst).flatten recs (l ++ [.findAll source.Full none] ++ evs0)
  have herr : err = none := by
    cases err with
    | none => rfl
    | some e =>
      obtain ⟨ev, hev, hfat⟩ := h3.1 rfl
      obtain ⟨r, hr, rel, k, -, rfl⟩ := h2 ev hev
      rw [hwrite k r _ hr] at hfat
      simp [Event.isFatal] at hfat
  subst herr
  have hset1 : ∀ e ∈ evs1, e.isFindAll = false ∧ e.isRequest = false := by
    intro e he
    obtain ⟨r, -, rel, k, -, rfl⟩ := h2 e he
    exact ⟨rfl, rfl⟩
  have hc1F : evs1.countP Event.isFindAll = 0 := by
    rw [List.countP_eq_zero]
    intro e he
    simp [(hset1 e he).1]
  have hc1R : evs1.countP Event.isRequest = 0 := by
    rw [List.countP_eq_zero]
    intro e he
    simp [(hset1 e he).2]
  refine ⟨[.findAll source.Full none] ++ evs0 ++ evs1, ?_, ?_, ?_, ?_, ?_⟩
  · intro r note out hmem
    simp only [List.mem_append, List.mem_singleton] at hmem
    rcases hmem with (hmem | hmem) | hmem
    · simp at hmem
    · have := hq0 _ hmem
      simp [Event.isCatalog] at this
    · obtain ⟨r1, hr1, rel, k, hfm, he⟩ := h2 _ hmem
      simp only [Event.setNotes.injEq] at he
      obtain ⟨rfl, rfl, rfl⟩ := he
      exact ⟨hwrite k r _ hr1, hr1, rel, hfm, rfl⟩
  · intro r hr rel hrel
    exact List.mem_append_right _ (h5 rfl r hr rel hrel)
  · simp [List.countP_append, Event.isFindAll, countP_findAll_of_not_catalog evs0 hq0, hc1F]
  · simp [List.countP_append, Event.isRequest, hreq0, hc1R]
  · simp only [syncLoop, hvalid, FindAll, hfind, errOf, emit, importNotesForRelease, hlen,
      if_false, hfetch]
    rw [hw]
    simp only
    rw [h1 n]
    simp only
    congr 1
    have hquiet : applyEvents ([.findAll source.Full none] ++ evs0) n = n := by
      apply applyEvents_no_setNotes
      intro e he
      rcases List.mem_append.1 he with he | he
      · simp only [List.mem_singleton] at he
        subst he
        rfl
      · exact not_setNotes_of_not_catalog e (hq0 e he)
    simp only [advance, applyEvents_append] at hquiet ⊢
    rw [hquiet]
    simp [List.append_assoc]


/-- C3, as stated, fails: the fetch for `srcA` fails, the fetch for `srcB` succeeds with a
release matching `recB1`, but the save for `recB1` fails and `Sync` returns that error. -/
theorem Sync_fails_on_failed_save :
    newGithubSource srcA = (acmeSource, true) ∧
    newGithubSource srcB = (boshSource, true) ∧
    (fetchAllReleasesFromGithub writeFailEnv 2 acmeSource emptyWorld).map (fun x => x.1)
      = some ([releaseA], some (.wrap (.raw "unavailable") .listingGithubReleases)) ∧
    (fetchAllReleasesFromGithub writeFailEnv 2 boshSource emptyWorld).map (fun x => x.1)
      = some ([sampleRelease, release2], none) ∧
    firstMatch recB1 [sampleRelease, release2] = some sampleRelease ∧
    (Sync writeFailEnv 2 emptyWorld).map (fun x => x.1)
      = some (some (.wrap (.wrap (.raw "disk full") (.savingNotes recB1))
          (.importingNotes srcB))) := by
  decide

/-- C3, amended. Let the catalog list the supported sources `srcA` and `srcB`, in either
order (`aFirst`), both with version records; let the service answer the page requests the
run makes for `srcA` with the pages `psA`, each announcing a next page, and fail on the
request after them; let it answer the requests for `srcB` to the end, with `rel` the first
release carrying the label of the record `rB` of `srcB`; and let the saves for the records
of `srcB` succeed.  Then with enough fuel `Sync` returns no error, the notes of `rB` are the
body of `rel` (empty when absent), every `SetNotes` call of the run is on a record of
`srcB`, and the notes of the records of `srcA` that are not also records of `srcB` are what
they were. -/
theorem Sync_isolates_failed_fetch (env : Env) (fuel : Nat) (w : World) (aFirst : Bool)
    (srcA srcB : Source) (ghA ghB : githubSource) (recsA recsB : List ReleaseVersionRec)
    (psA : List Page) (errA : Error) (init : List Page) (last : Page)
    (rB : ReleaseVersionRec) (rel : RepositoryRelease)
    (hlist : env.ListAll (w.log.countP Event.isListAll)
      = .ok (if aFirst then [srcA, srcB] else [srcB, srcA]))
    (hA : newGithubSource srcA = (ghA, true)) (hB : newGithubSource srcB = (ghB, true))
    (hfindA : env.FindAll (w.log.countP Event.isFindAll + (if aFirst then 0 else 1))
      srcA.Full = .ok recsA)
    (hneA : recsA ≠ [])
    (hfindB : env.FindAll (w.log.countP Event.isFindAll + (if aFirst then 1 else 0))
      srcB.Full = .ok recsB)
    (hpagesA : Answers env ghA.Owner ghA.Repo
      (w.log.countP Event.isRequest + (if aFirst then 0 else init.length + 1)) 0 psA)
    (hnextA : ∀ p ∈ psA, p.2.NextPage ≠ 0)
    (hfailA : env.ListReleases
      (w.log.countP Event.isRequest + (if aFirst then 0 else init.length + 1) + psA.length)
      ghA.Owner ghA.Repo { PerPage := 30, Page := nextPageAfter 0 psA } = .error errA)
    (hpagesB : Answers env ghB.Owner ghB.Repo
      (w.log.countP Event.isRequest + (if aFirst then psA.length + 1 else 0)) 0
      (init ++ [last]))
    (hnextB : ∀ p ∈ init, p.2.NextPage ≠ 0) (hlastB : last.2.NextPage = 0)
    (hrB : rB ∈ recsB)
    (hmatch : firstMatch rB ((init ++ [last]).map Prod.fst).flatten = some rel)
    (hwrite : ∀ k r note, r ∈ recsB → env.SetNotes k r note = none)
    (hfuelA : psA.length + 1 ≤ fuel) (hfuelB : init.length + 1 ≤ fuel) :
    ∃ (w1 : World) (evs : List Event),
      Sync env fuel w = some (none, w1) ∧ w1.log = w.log ++ evs ∧
      w1.notes rB = { Content := rel.Body.getD "" } ∧
      (∀ r note out, Event.setNotes r note out ∈ evs → r ∈ recsB) ∧
      (∀ r ∈ recsA, r ∉ recsB → w1.notes r = w.notes r) := by
  have hneB : recsB ≠ [] := by
    rintro rfl
    simp at hrB
  have hcF : List.countP Event.isFindAll (w.log ++ [Event.listAll none])
      = w.log.countP Event.isFindAll := by
    simp [List.countP_append, Event.isFindAll]
  have hcR : List.countP Event.isRequest (w.log ++ [Event.listAll none])
      = w.log.countP Event.isRequest := by
    simp [List.countP_append, Event.isRequest]
  -- both orders end in a world reached by the saves `evsB` and calls that save nothing
  have key : ∃ evsB evs : List Event,
      (∀ r note out, Event.setNotes r note out ∈ evsB →
        out = none ∧ r ∈ recsB ∧
          ∃ rel1, firstMatch r ((init ++ [last]).map Prod.fst).flatten = some rel1 ∧
            note = noteOf rel1) ∧
      (∀ r ∈ recsB, ∀ rel1,
        firstMatch r ((init ++ [last]).map Prod.fst).flatten = some rel1 →
          Event.setNotes r (noteOf rel1) none ∈ evsB) ∧
      (∀ e ∈ evs, e.isSetNotes = true → e ∈ evsB) ∧
      Sync env fuel w
        = some (none, { notes := applyEvents evsB w.notes, log := w.log ++ evs }) := by
    cases aFirst with
    | true =>
      simp only [if_true, Nat.add_zero] at hlist hfindA hfindB hpagesA hfailA hpagesB
      obtain ⟨evsA, hqA, hAF, hAR, hstepA⟩ := syncLoop_failed_fetch env fuel srcA ghA recsA
        psA errA [srcB] w.notes (w.log ++ [.listAll none]) hA (by rw [hcF]; exact hfindA)
        hneA (by rw [hcR]; exact hpagesA) hnextA (by rw [hcR]; exact hfailA) hfuelA
      obtain ⟨evsB, hB1, hB2, -, -, hstepB⟩ := syncLoop_saved env fuel srcB ghB recsB init
        last [] w.notes (w.log ++ [.listAll none] ++ evsA) hB
        (by rw [List.countP_append, hcF, hAF]; exact hfindB) hneB
        (by rw [List.countP_append, hcR, hAR]; exact hpagesB) hnextB hlastB hwrite hfuelB
      refine ⟨evsB, [.listAll none] ++ evsA ++ evsB, hB1, hB2, ?_, ?_⟩
      · intro e he hs
        simp only [List.mem_append, List.mem_singleton] at he
        rcases he with (rfl | he) | he
        · simp [Event.isSetNotes] at hs
        · rw [hqA e he] at hs
          simp at hs
        · exact he
      · simp only [Sync, ListAll, hlist, errOf, emit]
        rw [hstepA, hstepB]
        simp [syncLoop, advance, List.append_assoc]
    | false =>
      simp only [Bool.false_eq_true, if_false, Nat.add_zero] at hlist hfindA hfindB
      simp only [Bool.false_eq_true, if_false, Nat.add_zero] at hpagesA hfailA hpagesB
      obtain ⟨evsB, hB1, hB2, hBF, hBR, hstepB⟩ := syncLoop_saved env fuel srcB ghB recsB init
        last [srcA] w.notes (w.log ++ [.listAll none]) hB (by rw [hcF]; exact hfindB) hneB
        (by rw [hcR]; exact hpagesB) hnextB hlastB hwrite hfuelB
      obtain ⟨evsA, hqA, -, -, hstepA⟩ := syncLoop_failed_fetch env fuel srcA ghA recsA
        psA errA [] (applyEvents evsB w.notes) (w.log ++ [.listAll none] ++ evsB) hA
        (by rw [List.countP_append, hcF, hBF]; exact hfindA) hneA
        (by rw [List.countP_append, hcR, hBR]; exact hpagesA) hnextA
        (by rw [List.countP_append, hcR, hBR]; exact hfailA) hfuelA
      refine ⟨evsB, [.listAll none] ++ evsB ++ evsA, hB1, hB2, ?_, ?_⟩
      · intro e he hs
        simp only [List.mem_append, List.mem_singleton] at he
        rcases he with (rfl | he) | he
        · simp [Event.isSetNotes] at hs
        · exact he
        · rw [hqA e he] at hs
          simp at hs
      · simp only [Sync, ListAll, hlist, errOf, emit]
        rw [hstepB]
        simp only [advance]
        rw [hstepA]
        simp [syncLoop, List.append_assoc]
  obtain ⟨evsB, evs, hB1, hB2, hsub, hsync⟩ := key
  refine ⟨_, evs, hsync, rfl, ?_, ?_, ?_⟩
  · apply applyEvents_const
    · intro note hmem
      obtain ⟨-, -, rel1, hfm, rfl⟩ := hB1 _ _ _ hmem
      rw [hmatch] at hfm
      obtain rfl := Option.some.inj hfm
      rfl
    · exact Or.inr ⟨_, hB2 rB hrB rel hmatch⟩
  · intro r note out hmem
    exact (hB1 _ _ _ (hsub _ hmem rfl)).2.1
  · intro r _ hrB2
    apply applyEvents_frame
    intro note hmem
    exact hrB2 (hB1 _ _ _ hmem).2.1

/-- C3 amended, on `isolationEnv`: the fetch for `srcA` fails on its second page after a
first page with a release matching `recA`; `Sync` returns no error, `recB1` holds the notes
of its release and `recA` is untouched. -/
theorem Sync_isolates_failed_fetch_witness :
    firstMatch recA [releaseA] = some releaseA ∧
    ∃ (w1 : World) (evs : List Event),
      Sync isolationEnv 2 staleWorld = some (none, w1) ∧ w1.log = staleWorld.log ++ evs ∧
      w1.notes recB1 = { Content := "first release" } ∧
      (∀ r note out, Event.setNotes r note out ∈ evs → r ∈ [recB1, recB2]) ∧
      (∀ r ∈ [recA], r ∉ [recB1, recB2] → w1.notes r = staleWorld.notes r) :=
  ⟨by decide,
    Sync_isolates_failed_fetch isolationEnv 2 staleWorld true srcA srcB acmeSource boshSource
      [recA] [recB1, recB2]
      [([releaseA], { NextPage := 2, Rate := { Remaining := 4000, Reset := 0 } })]
      (.raw "unavailable") []
      ([sampleRelease, release2], { NextPage := 0, Rate := { Remaining := 4000, Reset := 0 } })
      recB1 sampleRelease rfl (by decide) (by decide) rfl (by decide) rfl
      ⟨rfl, trivial⟩ (by decide) rfl ⟨rfl, trivial⟩ (by decide) rfl (by decide) (by decide)
      (fun _ _ _ _ => rfl) (by decide) (by decide)⟩


/-! ## When `Sync` returns an error -/

/-- A pass over the records that returns an error has reached, without error, a record with
a release carrying its label, and the save of that record has failed. -/
theorem importLoop_error_cases (env : Env) (rels : List RepositoryRelease) :
    ∀ (recs : List ReleaseVersionRec) (w : World) (ie : Error) (w2 : World),
      importLoop env rels recs w = (some ie, w2) →
      ∃ (rpre : List ReleaseVersionRec) (r : ReleaseVersionRec)
        (rpost : List ReleaseVersionRec) (rel : RepositoryRelease) (w3 : World)
        (cause : Error),
        recs = rpre ++ r :: rpost ∧ importLoop env rels rpre w = (none, w3) ∧
        firstMatch r rels = some rel ∧
        env.SetNotes (w3.log.countP Event.isSetNotes) r { Content := rel.Body.getD "" }
          = some cause ∧
        ie = .wrap cause (.savingNotes r) := by
  intro recs
  induction recs with
  | nil =>
    intro w ie w2 h
    simp [importLoop] at h
  | cons r rest ih =>
    intro w ie w2 h
    have hscan := scanReleases_eq env r rels w.notes w.log
    change scanReleases env r rels w = _ at hscan
    simp only [importLoop, hscan] at h
    cases hm : firstMatch r rels with
    | none =>
      simp only [hm] at h
      obtain ⟨rpre, r1, rpost, rel, w3, cause, h1, h2, h3, h4, h5⟩ := ih _ ie w2 h
      refine ⟨r :: rpre, r1, rpost, rel, w3, cause, by simp [h1], ?_, h3, h4, h5⟩
      simp only [importLoop, hscan, hm]
      exact h2
    | some rel =>
      simp only [hm, noteOf] at h
      cases ho : env.SetNotes (w.log.countP Event.isSetNotes) r
          { Content := rel.Body.getD "" } with
      | some cause =>
        simp only [ho, Option.map_some', Prod.mk.injEq, Option.some.injEq] at h
        exact ⟨[], r, rest, rel, w, cause, rfl, rfl, hm, ho, h.1.symm⟩
      | none =>
        simp only [ho, Option.map_none'] at h
        obtain ⟨rpre, r1, rpost, rel1, w3, cause, h1, h2, h3, h4, h5⟩ := ih _ ie w2 h
        refine ⟨r :: rpre, r1, rpost, rel1, w3, cause, by simp [h1], ?_, h3, h4, h5⟩
        simp only [importLoop, hscan, hm, noteOf, ho, Option.map_none']
        exact h2

/-- A loop over the sources that returns an error has reached, without error, a supported
source for which listing the versions, or saving the note of a matched record, failed. -/
theorem syncLoop_error_cases (env : Env) (fuel : Nat) :
    ∀ (sources : List Source) (w0 : World) (e : Error) (w9 : World),
      syncLoop env fuel sources w0 = some (some e, w9) →
      ∃ (pre : List Source) (source : Source) (post : List Source) (w1 : World),
        sources = pre ++ source :: post ∧
        syncLoop env fuel pre w0 = some (none, w1) ∧
        (newGithubSource source).2 = true ∧
        ((∃ cause, env.FindAll (w1.log.countP Event.isFindAll) source.Full = .error cause ∧
            e = .wrap cause (.listingVersions source)) ∨
          ∃ (rpre : List ReleaseVersionRec) (r : ReleaseVersionRec)
            (rpost : List ReleaseVersionRec) (rels : List RepositoryRelease)
            (rel : RepositoryRelease) (w2 w3 : World) (cause : Error),
            env.FindAll (w1.log.countP Event.isFindAll) source.Full
              = .ok (rpre ++ r :: rpost) ∧
            fetchAllReleasesFromGithub env fuel (newGithubSource source).1
                (emit (.findAll source.Full none) w1) = some ((rels, none), w2) ∧
            importLoop env rels rpre w2 = (none, w3) ∧
            firstMatch r rels = some rel ∧
            env.SetNotes (w3.log.countP Event.isSetNotes) r { Content := rel.Body.getD "" }
              = some cause ∧
            e = .wrap (.wrap cause (.savingNotes r)) (.importingNotes source)) := by
  intro sources
  induction sources with
  | nil =>
    intro w0 e w9 h
    simp [syncLoop] at h
  | cons source rest ih =>
    intro w0 e w9 h
    rcases hns : newGithubSource source with ⟨gh, _ | _⟩
    · simp only [syncLoop, hns] at h
      obtain ⟨pre, s1, post, w1, h1, h2, h3⟩ := ih w0 e w9 h
      refine ⟨source :: pre, s1, post, w1, by simp [h1], ?_, h3⟩
      simp only [syncLoop, hns]
      exact h2
    · cases hf : env.FindAll (w0.log.countP Event.isFindAll) source.Full with
      | error cause =>
        simp only [syncLoop, hns, FindAll, hf, errOf, Option.some.injEq, Prod.mk.injEq] at h
        exact ⟨[], source, rest, w0, rfl, rfl, by rw [hns],
          Or.inl ⟨cause, hf, h.1.symm⟩⟩
      | ok recs =>
        simp only [syncLoop, hns, FindAll, hf, errOf] at h
        cases hi : importNotesForRelease env fuel gh recs
            (emit (.findAll source.Full none) w0) with
        | none => simp [hi] at h
        | some res =>
          obtain ⟨ierr, w2⟩ := res
          cases ierr with
          | none =>
            simp only [hi] at h
            obtain ⟨pre, s1, post, w1, h1, h2, h3⟩ := ih w2 e w9 h
            refine ⟨source :: pre, s1, post, w1, by simp [h1], ?_, h3⟩
            simp only [syncLoop, hns, FindAll, hf, errOf, hi]
            exact h2
          | some ie =>
            simp only [hi, Option.some.injEq, Prod.mk.injEq] at h
            -- the error comes from the pass over the records
            have hlen : recs.length ≠ 0 := by
              intro h0
              simp [importNotesForRelease, h0] at hi
            simp only [importNotesForRelease, hlen, if_false] at hi
            cases hfe : fetchAllReleasesFromGithub env fuel gh
                (emit (.findAll source.Full none) w0) with
            | none => simp [hfe] at hi
            | some fr =>
              obtain ⟨⟨rels, ferr⟩, wf⟩ := fr
              cases ferr with
              | some _ => simp [hfe] at hi
              | none =>
                simp only [hfe, Option.some.injEq] at hi
                obtain ⟨rpre, r, rpost, rel, w3, cause, h1, h2, h3, h4, h5⟩ :=
                  importLoop_error_cases env rels recs wf ie w2 hi
                refine ⟨[], source, rest, w0, rfl, rfl, by rw [hns], Or.inr
                  ⟨rpre, r, rpost, rels, rel, wf, w3, cause, by rw [hf, h1], ?_, h2, h3, h4,
                    by rw [← h.1, h5]⟩⟩
                rw [hns]
                exact hfe


/-- When no catalog call fails and every fetch returns, with or without an error, the loop
over the sources returns no error. -/
theorem syncLoop_no_error (env : Env) (fuel : Nat)
    (hfind : ∀ k source, ∃ recs, env.FindAll k source = .ok recs)
    (hsave : ∀ k r note, env.SetNotes k r note = none)
    (hfetch : ∀ gh w0, fetchAllReleasesFromGithub env fuel gh w0 ≠ none) :
    ∀ (sources : List Source) (w0 : World),
      ∃ w1, syncLoop env fuel sources w0 = some (none, w1) := by
  intro sources
  induction sources with
  | nil => intro w0; exact ⟨w0, rfl⟩
  | cons source rest ih =>
    intro w0
    rcases hns : newGithubSource source with ⟨gh, _ | _⟩
    · simp only [syncLoop, hns]
      exact ih w0
    · obtain ⟨recs, hf⟩ := hfind (w0.log.countP Event.isFindAll) source.Full
      simp only [syncLoop, hns, FindAll, hf, errOf]
      have himp : ∃ w2, importNotesForRelease env fuel gh recs
          (emit (.findAll source.Full none) w0) = some (none, w2) := by
        by_cases hlen : recs.length = 0
        · simp only [importNotesForRelease, hlen, if_true]
          exact ⟨_, rfl⟩
        · simp only [importNotesForRelease, hlen, if_false]
          cases hfe : fetchAllReleasesFromGithub env fuel gh
              (emit (.findAll source.Full none) w0) with
          | none => exact absurd hfe (hfetch _ _)
          | some fr =>
            obtain ⟨⟨rels, ferr⟩, wf⟩ := fr
            cases ferr with
            | some err => exact ⟨_, rfl⟩
            | none =>
              simp only
              rcases hl : importLoop env rels recs wf with ⟨_ | ie, w2⟩
              · exact ⟨w2, rfl⟩
              · obtain ⟨rpre, r, rpost, rel, w3, cause, -, -, -, h4, -⟩ :=
                  importLoop_error_cases env rels recs wf ie w2 hl
                rw [hsave] at h4
                exact absurd h4 (by simp)
      obtain ⟨w2, hi⟩ := himp
      simp only [hi]
      exact ih w2

/-- C4. `Sync` returns the error `e` if and only if one of the three catalog operations
fails during the pass and `e` is made of it (`FatalFailure`): listing the sources, listing
the versions of a source that resolves as supported, or saving the note of a record whose
label a release of the fetched list carries.  Each of these failures makes `Sync` return,
with that error; and when no catalog call fails and every fetch returns, with or without an
error, `Sync` returns no error, whatever sources are unsupported, have no records, have
records without a matching release or have a failed fetch. -/
theorem Sync_error_iff (env : Env) (fuel : Nat) (w : World) :
    (∀ e : Error, (∃ w9, Sync env fuel w = some (some e, w9)) ↔ FatalFailure env fuel w e) ∧
    ((∃ sources, env.ListAll (w.log.countP Event.isListAll) = .ok sources) →
      (∀ k source, ∃ recs, env.FindAll k source = .ok recs) →
      (∀ k r note, env.SetNotes k r note = none) →
      (∀ gh w0, fetchAllReleasesFromGithub env fuel gh w0 ≠ none) →
      ∃ w9, Sync env fuel w = some (none, w9)) := by
  refine ⟨fun e => ⟨?_, ?_⟩, ?_⟩
  · rintro ⟨w9, h⟩
    cases hl : env.ListAll (w.log.countP Event.isListAll) with
    | error cause =>
      simp only [Sync, ListAll, hl, errOf, Option.some.injEq, Prod.mk.injEq] at h
      exact Or.inl ⟨cause, hl, h.1.symm⟩
    | ok sources =>
      simp only [Sync, ListAll, hl, errOf] at h
      obtain ⟨pre, source, post, w1, h1, h2, h3, h4⟩ :=
        syncLoop_error_cases env fuel sources _ e w9 h
      exact Or.inr ⟨pre, source, post, w1, by rw [hl, h1], h2, h3, h4⟩
  · rintro (⟨cause, hl, rfl⟩ | ⟨pre, source, post, w1, hl, hpre, hvalid, hcase⟩)
    · simp only [Sync, ListAll, hl, errOf]
      exact ⟨_, rfl⟩
    · rcases hns : newGithubSource source with ⟨gh, valid⟩
      rw [hns] at hvalid hcase
      simp only at hvalid hcase
      subst hvalid
      have hsync : Sync env fuel w = syncLoop env fuel (source :: post) w1 := by
        simp only [Sync, ListAll, hl, errOf]
        rw [syncLoop_append, hpre]
      rcases hcase with ⟨cause, hf, rfl⟩ |
        ⟨rpre, r, rpost, rels, rel, w2, w3, cause, hf, hfe, hrpre, hm, ho, rfl⟩
      · rw [hsync]
        simp only [syncLoop, hns, FindAll, hf, errOf]
        exact ⟨_, rfl⟩
      · have hlen : (rpre ++ r :: rpost).length ≠ 0 := by simp
        have hscan := scanReleases_eq env r rels w3.notes w3.log
        change scanReleases env r rels w3 = _ at hscan
        simp only [hm, noteOf, ho, Option.map_some'] at hscan
        rw [hsync]
        simp only [syncLoop, hns, FindAll, hf, errOf, importNotesForRelease, hlen, if_false,
          hfe]
        rw [importLoop_append, hrpre]
        simp only [importLoop, hscan]
        exact ⟨_, rfl⟩
  · rintro ⟨sources, hl⟩ hfind hsave hfetch
    simp only [Sync, ListAll, hl, errOf]
    exact syncLoop_no_error env fuel hfind hsave hfetch sources _


/-- C4 on two runs: in `writeFailEnv` the fetch for `srcA` fails and then the save for the
matched record `recB1` of `srcB` fails, so `Sync` returns that error; in `fetchDownEnv`
every fetch fails and no catalog call does, so `Sync` returns no error. -/
theorem Sync_error_iff_witness :
    (∃ w9, Sync writeFailEnv 2 emptyWorld
      = some (some (.wrap (.wrap (.raw "disk full") (.savingNotes recB1))
          (.importingNotes srcB)), w9)) ∧
    (∃ w9, Sync fetchDownEnv 1 emptyWorld = some (none, w9)) :=
  ⟨((Sync_error_iff writeFailEnv 2 emptyWorld).1 _).2
      (Or.inr ⟨[srcA], srcB, [], { notes := emptyWorld.notes, log := acmeFailedLog },
        rfl, rfl, by decide,
        Or.inr ⟨[], recB1, [recB2], [sampleRelease, release2], sampleRelease,
          { notes := emptyWorld.notes,
            log := acmeFailedLog ++ [.findAll "github.com/cloudfoundry/bosh" none]
              ++ boshFetchLog },
          { notes := emptyWorld.notes,
            log := acmeFailedLog ++ [.findAll "github.com/cloudfoundry/bosh" none]
              ++ boshFetchLog },
          .raw "disk full", rfl, rfl, rfl, by decide, rfl, rfl⟩⟩),
    (Sync_error_iff fetchDownEnv 1 emptyWorld).2 ⟨_, rfl⟩ (fun _ _ => ⟨_, rfl⟩)
      (fun _ _ _ => rfl)
      (fun gh w0 => by
        simp [fetchAllReleasesFromGithub, fetchLoop, ListReleases, fetchDownEnv])⟩


/-! ## Two runs against the same upstream -/

theorem setNotesOf_append (a b : List Event) :
    setNotesOf (a ++ b) = setNotesOf a ++ setNotesOf b := by
  simp [setNotesOf, List.filterMap_append]

theorem countP_setNotes (evs : List Event) :
    evs.countP Event.isSetNotes = (setNotesOf evs).length := by
  induction evs with
  | nil => rfl
  | cons e evs ih =>
    cases e <;> simp_all [List.countP_cons, Event.isSetNotes, setNotesOf]

theorem sameCalls_refl (evs : List Event) : SameCalls evs evs :=
  ⟨Eq.refl _, Eq.refl _, Eq.refl _, Eq.refl _⟩

theorem sameCalls_append {a a2 b b2 : List Event} (h1 : SameCalls a a2)
    (h2 : SameCalls b b2) : SameCalls (a ++ b) (a2 ++ b2) := by
  obtain ⟨p1, p2, p3, p4⟩ := h1
  obtain ⟨q1, q2, q3, q4⟩ := h2
  refine ⟨?_, ?_, ?_, ?_⟩
  · rw [setNotesOf_append, setNotesOf_append, p1, q1]
  · rw [List.countP_append, List.countP_append, p2, q2]
  · rw [List.countP_append, List.countP_append, p3, q3]
  · rw [List.countP_append, List.countP_append, p4, q4]

/-- Calls that are neither catalog calls nor page requests count for nothing. -/
theorem sameCalls_of_fetch (evs evs2 : List Event)
    (h1 : ∀ e ∈ evs, e.isCatalog = false) (h2 : ∀ e ∈ evs2, e.isCatalog = false)
    (hreq : evs.countP Event.isRequest = evs2.countP Event.isRequest) :
    SameCalls evs evs2 := by
  have key : ∀ l : List Event, (∀ e ∈ l, e.isCatalog = false) →
      setNotesOf l = [] ∧ l.countP Event.isListAll = 0 ∧ l.countP Event.isFindAll = 0 := by
    intro l hl
    induction l with
    | nil => exact ⟨rfl, rfl, rfl⟩
    | cons e l ih =>
      have he := hl e (by simp)
      obtain ⟨i1, i2, i3⟩ := ih (fun x hx => hl x (by simp [hx]))
      cases e <;>
        simp_all [Event.isCatalog, setNotesOf, List.countP_cons, Event.isListAll,
          Event.isFindAll]
  obtain ⟨a1, a2, a3⟩ := key evs h1
  obtain ⟨b1, b2, b3⟩ := key evs2 h2
  exact ⟨by rw [a1, b1], by rw [a2, b2], by rw [a3, b3], hreq⟩

theorem sameUpstream_append {env env2 : Env} {l l2 : List Event} (evs evs2 : List Event)
    (h : SameUpstream env l env2 l2) (hc : SameCalls evs evs2) :
    SameUpstream env (l ++ evs) env2 (l2 ++ evs2) := by
  obtain ⟨h1, h2, h3, h4⟩ := h
  obtain ⟨c1, c2, c3, c4⟩ := hc
  have c1n : evs.countP Event.isSetNotes = evs2.countP Event.isSetNotes := by
    rw [countP_setNotes, countP_setNotes, c1]
  refine ⟨fun k => ?_, fun k source => ?_, fun k r note => ?_, fun k owner repo opts => ?_⟩
  · rw [List.countP_append, List.countP_append, c2, Nat.add_assoc, Nat.add_assoc]
    exact h1 _
  · rw [List.countP_append, List.countP_append, c3, Nat.add_assoc, Nat.add_assoc]
    exact h2 _ _
  · rw [List.countP_append, List.countP_append, c1n, Nat.add_assoc, Nat.add_assoc]
    exact h3 _ _ _
  · rw [List.countP_append, List.countP_append, c4, Nat.add_assoc, Nat.add_assoc]
    exact h4 _ _ _ _

/-- The note store after a list of calls depends on the saves among them alone. -/
theorem applyEvents_of_setNotesOf :
    ∀ (evs evs2 : List Event) (n : ReleaseVersionRec → NoteRec),
      setNotesOf evs = setNotesOf evs2 → applyEvents evs n = applyEvents evs2 n := by
  have canon : ∀ (evs : List Event) (n : ReleaseVersionRec → NoteRec),
      applyEvents evs n
        = applyEvents ((setNotesOf evs).map fun t => Event.setNotes t.1 t.2.1 t.2.2) n := by
    intro evs
    induction evs with
    | nil => intro n; rfl
    | cons e evs ih =>
      intro n
      cases e <;> simp [applyEvents, applyEvent, setNotesOf, ih]
  intro evs evs2 n h
  rw [canon evs, canon evs2, h]


/-- Against the same upstream the fetch loop returns the same result in both runs, after
calls that differ in clock readings, sleeps and log lines alone. -/
theorem fetchLoop_sim (env env2 : Env) (ghSource : githubSource) :
    ∀ (fuel : Nat) (page : Int) (acc : List RepositoryRelease) (l l2 : List Event),
      SameUpstream env l env2 l2 →
      ∃ (r : Option (List RepositoryRelease × Option Error)) (evs evs2 : List Event),
        (∀ n : ReleaseVersionRec → NoteRec,
          fetchLoop env ghSource fuel { PerPage := 30, Page := page } acc
              { notes := n, log := l }
            = r.map fun x => (x, { notes := n, log := l ++ evs })) ∧
        (∀ n : ReleaseVersionRec → NoteRec,
          fetchLoop env2 ghSource fuel { PerPage := 30, Page := page } acc
              { notes := n, log := l2 }
            = r.map fun x => (x, { notes := n, log := l2 ++ evs2 })) ∧
        (∀ e ∈ evs, e.isCatalog = false) ∧ (∀ e ∈ evs2, e.isCatalog = false) ∧
        evs.countP Event.isRequest = evs2.countP Event.isRequest := by
  intro fuel
  induction fuel with
  | zero =>
    intro page acc l l2 _
    exact ⟨none, [], [], fun n => by simp [fetchLoop], fun n => by simp [fetchLoop],
      by simp, by simp, rfl⟩
  | succ f ih =>
    intro page acc l l2 hsame
    have hresp : env2.ListReleases (l2.countP Event.isRequest) ghSource.Owner ghSource.Repo
        { PerPage := 30, Page := page }
        = env.ListReleases (l.countP Event.isRequest) ghSource.Owner ghSource.Repo
          { PerPage := 30, Page := page } := by
      have := hsame.2.2.2 0 ghSource.Owner ghSource.Repo { PerPage := 30, Page := page }
      simpa using this
    cases h : env.ListReleases (l.countP Event.isRequest) ghSource.Owner ghSource.Repo
        { PerPage := 30, Page := page } with
    | error err =>
      rw [h] at hresp
      refine ⟨some (acc, some (.wrap err .listingGithubReleases)),
        [.listReleases ghSource.Owner ghSource.Repo { PerPage := 30, Page := page }
          (some err)],
        [.listReleases ghSource.Owner ghSource.Repo { PerPage := 30, Page := page }
          (some err)], fun n => ?_, fun n => ?_, by simp [Event.isCatalog],
        by simp [Event.isCatalog], rfl⟩
      · rw [fetchLoop_error env ghSource f page acc l err h n]
        rfl
      · rw [fetchLoop_error env2 ghSource f page acc l2 err hresp n]
        rfl
    | ok p =>
      obtain ⟨rels, resp⟩ := p
      rw [h] at hresp
      obtain ⟨seg, hb, hcat, hstep⟩ := fetchLoop_step env ghSource f page acc l rels resp h
      obtain ⟨seg2, hb2, hcat2, hstep2⟩ :=
        fetchLoop_step env2 ghSource f page acc l2 rels resp hresp
      have hq : ∀ sg : List Event, (∀ e ∈ sg, e.isCatalog = false) →
          ∀ e ∈ Event.listReleases ghSource.Owner ghSource.Repo
            { PerPage := 30, Page := page } none :: sg, e.isCatalog = false := by
        intro sg hsg e he
        rcases List.mem_cons.1 he with rfl | he
        · rfl
        · exact hsg e he
      have hc : ∀ sg : List Event, (∀ e ∈ sg, e.isRequest = false) →
          List.countP Event.isRequest (Event.listReleases ghSource.Owner ghSource.Repo
            { PerPage := 30, Page := page } none :: sg) = 1 := by
        intro sg hsg
        have := countP_request_seg [] sg
          (.listReleases ghSource.Owner ghSource.Repo { PerPage := 30, Page := page } none)
          rfl hsg
        simpa using this
      by_cases hnp : resp.NextPage = 0
      · refine ⟨some (acc ++ rels, none),
          .listReleases ghSource.Owner ghSource.Repo { PerPage := 30, Page := page } none
            :: seg,
          .listReleases ghSource.Owner ghSource.Repo { PerPage := 30, Page := page } none
            :: seg2, fun n => ?_, fun n => ?_, hq seg hcat, hq seg2 hcat2, ?_⟩
        · rw [hstep n, if_pos hnp]
          rfl
        · rw [hstep2 n, if_pos hnp]
          rfl
        · rw [hc seg hb.1, hc seg2 hb2.1]
      · have hsame2 := sameUpstream_append
          (.listReleases ghSource.Owner ghSource.Repo { PerPage := 30, Page := page } none
            :: seg)
          (.listReleases ghSource.Owner ghSource.Repo { PerPage := 30, Page := page } none
            :: seg2) hsame
          (sameCalls_of_fetch _ _ (hq seg hcat) (hq seg2 hcat2)
            (by rw [hc seg hb.1, hc seg2 hb2.1]))
        obtain ⟨r, evs, evs2, hr1, hr2, hq1, hq2, hcnt⟩ :=
          ih resp.NextPage (acc ++ rels) _ _ hsame2
        refine ⟨r,
          (.listReleases ghSource.Owner ghSource.Repo { PerPage := 30, Page := page } none
            :: seg) ++ evs,
          (.listReleases ghSource.Owner ghSource.Repo { PerPage := 30, Page := page } none
            :: seg2) ++ evs2, fun n => ?_, fun n => ?_, ?_, ?_, ?_⟩
        · rw [hstep n, if_neg hnp, hr1 n]
          cases r <;> simp
        · rw [hstep2 n, if_neg hnp, hr2 n]
          cases r <;> simp
        · intro e he
          rcases List.mem_append.1 he with he | he
          · exact hq seg hcat e he
          · exact hq1 e he
        · intro e he
          rcases List.mem_append.1 he with he | he
          · exact hq seg2 hcat2 e he
          · exact hq2 e he
        · rw [List.countP_append, List.countP_append, hc seg hb.1, hc seg2 hb2.1, hcnt]

/-- Against the same upstream the pass over the records makes the same saves and returns
the same result in both runs. -/
theorem importLoop_sim (env env2 : Env) (rels : List RepositoryRelease) :
    ∀ (recs : List ReleaseVersionRec) (l l2 : List Event),
      SameUpstream env l env2 l2 →
      ∃ (err : Option Error) (evs : List Event),
        (∀ n, importLoop env rels recs { notes := n, log := l }
          = (err, advance evs { notes := n, log := l })) ∧
        (∀ n, importLoop env2 rels recs { notes := n, log := l2 }
          = (err, advance evs { notes := n, log := l2 })) := by
  intro recs
  induction recs with
  | nil =>
    intro l l2 _
    exact ⟨none, [], fun n => by simp [importLoop, advance_nil],
      fun n => by simp [importLoop, advance_nil]⟩
  | cons r rest ih =>
    intro l l2 hsame
    cases hm : firstMatch r rels with
    | none =>
      obtain ⟨err, evs, h1, h2⟩ := ih l l2 hsame
      refine ⟨err, evs, fun n => ?_, fun n => ?_⟩
      · simp only [importLoop, scanReleases_eq, hm]
        exact h1 n
      · simp only [importLoop, scanReleases_eq, hm]
        exact h2 n
    | some rel =>
      have hout : env2.SetNotes (l2.countP Event.isSetNotes) r (noteOf rel)
          = env.SetNotes (l.countP Event.isSetNotes) r (noteOf rel) := by
        have := hsame.2.2.1 0 r (noteOf rel)
        simpa using this
      cases ho : env.SetNotes (l.countP Event.isSetNotes) r (noteOf rel) with
      | some cause =>
        rw [ho] at hout
        refine ⟨some (.wrap cause (.savingNotes r)),
          [.setNotes r (noteOf rel) (some cause)], fun n => ?_, fun n => ?_⟩
        · simp only [importLoop, scanReleases_eq, hm, ho, Option.map_some']
        · simp only [importLoop, scanReleases_eq, hm, hout, Option.map_some']
      | none =>
        rw [ho] at hout
        obtain ⟨err, evs, h1, h2⟩ := ih (l ++ [.setNotes r (noteOf rel) none])
          (l2 ++ [.setNotes r (noteOf rel) none])
          (sameUpstream_append _ _ hsame (sameCalls_refl _))
        refine ⟨err, .setNotes r (noteOf rel) none :: evs, fun n => ?_, fun n => ?_⟩
        · simp only [importLoop, scanReleases_eq, hm, ho, Option.map_none']
          rw [advance_cons _ evs]
          exact h1 (applyEvents [.setNotes r (noteOf rel) none] n)
        · simp only [importLoop, scanReleases_eq, hm, hout, Option.map_none']
          rw [advance_cons _ evs]
          exact h2 (applyEvents [.setNotes r (noteOf rel) none] n)


theorem advance_quiet (evs : List Event) (n : ReleaseVersionRec → NoteRec) (l : List Event)
    (h : ∀ e ∈ evs, e.isCatalog = false) :
    advance evs { notes := n, log := l } = { notes := n, log := l ++ evs } := by
  simp [advance, applyEvents_quiet _ n h]

/-- Against the same upstream `importNotesForRelease` returns the same result in both runs,
after the same saves. -/
theorem importNotes_sim (env env2 : Env) (fuel : Nat) (ghSource : githubSource)
    (recs : List ReleaseVersionRec) (l l2 : List Event) (hsame : SameUpstream env l env2 l2) :
    ∃ (r : Option (Option Error)) (evs evs2 : List Event),
      (∀ n : ReleaseVersionRec → NoteRec,
        importNotesForRelease env fuel ghSource recs { notes := n, log := l }
          = r.map fun x => (x, advance evs { notes := n, log := l })) ∧
      (∀ n : ReleaseVersionRec → NoteRec,
        importNotesForRelease env2 fuel ghSource recs { notes := n, log := l2 }
          = r.map fun x => (x, advance evs2 { notes := n, log := l2 })) ∧
      SameCalls evs evs2 := by
  by_cases hrecs : recs.length = 0
  · exact ⟨some none, [], [], fun n => by simp [importNotesForRelease, hrecs, advance_nil],
      fun n => by simp [importNotesForRelease, hrecs, advance_nil], sameCalls_refl _⟩
  · have hfq : ∀ e ∈ [Event.logDebug (.fetching ghSource)], e.isCatalog = false := by
      intro e he
      simp only [List.mem_singleton] at he
      subst he
      rfl
    have hsame1 := sameUpstream_append [Event.logDebug (.fetching ghSource)]
      [Event.logDebug (.fetching ghSource)] hsame (sameCalls_refl _)
    obtain ⟨r0, e0, e0', h0, h0', hq0, hq0', hcnt⟩ :=
      fetchLoop_sim env env2 ghSource fuel 0 [] _ _ hsame1
    have hqa : ∀ e ∈ [Event.logDebug (.fetching ghSource)] ++ e0, e.isCatalog = false := by
      intro e he
      rcases List.mem_append.1 he with he | he
      · exact hfq e he
      · exact hq0 e he
    have hqa' : ∀ e ∈ [Event.logDebug (.fetching ghSource)] ++ e0', e.isCatalog = false := by
      intro e he
      rcases List.mem_append.1 he with he | he
      · exact hfq e he
      · exact hq0' e he
    have hca : SameCalls ([Event.logDebug (.fetching ghSource)] ++ e0)
        ([Event.logDebug (.fetching ghSource)] ++ e0') :=
      sameCalls_of_fetch _ _ hqa hqa'
        (by rw [List.countP_append, List.countP_append, hcnt])
    have hf1 : ∀ n, fetchAllReleasesFromGithub env fuel ghSource { notes := n, log := l }
        = r0.map fun x =>
            (x, World.mk n (l ++ ([Event.logDebug (.fetching ghSource)] ++ e0))) := by
      intro n
      simp only [fetchAllReleasesFromGithub, logDebug, emit]
      rw [h0 n]
      cases r0 <;> simp
    have hf2 : ∀ n, fetchAllReleasesFromGithub env2 fuel ghSource { notes := n, log := l2 }
        = r0.map fun x =>
            (x, World.mk n (l2 ++ ([Event.logDebug (.fetching ghSource)] ++ e0'))) := by
      intro n
      simp only [fetchAllReleasesFromGithub, logDebug, emit]
      rw [h0' n]
      cases r0 <;> simp
    cases r0 with
    | none =>
      exact ⟨none, [], [], fun n => by simp [importNotesForRelease, hrecs, hf1 n],
        fun n => by simp [importNotesForRelease, hrecs, hf2 n], sameCalls_refl _⟩
    | some y =>
      obtain ⟨rels, ferr⟩ := y
      cases ferr with
      | some err =>
        have hle : ∀ e ∈ [Event.logError (.fetchFailed ghSource err)],
            e.isCatalog = false := by
          intro e he
          simp only [List.mem_singleton] at he
          subst he
          rfl
        have hall : ∀ (a : List Event), (∀ e ∈ a, e.isCatalog = false) →
            ∀ e ∈ a ++ [Event.logError (.fetchFailed ghSource err)],
              e.isCatalog = false := by
          intro a ha e he
          rcases List.mem_append.1 he with he | he
          · exact ha e he
          · exact hle e he
        refine ⟨some none,
          ([Event.logDebug (.fetching ghSource)] ++ e0)
            ++ [.logError (.fetchFailed ghSource err)],
          ([Event.logDebug (.fetching ghSource)] ++ e0')
            ++ [.logError (.fetchFailed ghSource err)], fun n => ?_, fun n => ?_,
          sameCalls_append hca (sameCalls_refl _)⟩
        · simp only [importNotesForRelease, hrecs, if_false, hf1 n, Option.map_some',
            logError, emit]
          rw [advance_quiet _ n l (hall _ hqa)]
          simp [List.append_assoc]
        · simp only [importNotesForRelease, hrecs, if_false, hf2 n, Option.map_some',
            logError, emit]
          rw [advance_quiet _ n l2 (hall _ hqa')]
          simp [List.append_assoc]
      | none =>
        obtain ⟨err, evs, h1, h2⟩ := importLoop_sim env env2 rels recs
          (l ++ ([Event.logDebug (.fetching ghSource)] ++ e0))
          (l2 ++ ([Event.logDebug (.fetching ghSource)] ++ e0'))
          (sameUpstream_append _ _ hsame hca)
        refine ⟨some err, ([Event.logDebug (.fetching ghSource)] ++ e0) ++ evs,
          ([Event.logDebug (.fetching ghSource)] ++ e0') ++ evs, fun n => ?_, fun n => ?_,
          sameCalls_append hca (sameCalls_refl _)⟩
        · simp only [importNotesForRelease, hrecs, if_false, hf1 n, Option.map_some']
          rw [h1 n, advance_append, advance_quiet _ n l hqa]
        · simp only [importNotesForRelease, hrecs, if_false, hf2 n, Option.map_some']
          rw [h2 n, advance_append, advance_quiet _ n l2 hqa']


/-- Against the same upstream the loop of `Sync` returns the same result in both runs, after
the same saves. -/
theorem syncLoop_sim (env env2 : Env) (fuel : Nat) :
    ∀ (sources : List Source) (l l2 : List Event), SameUpstream env l env2 l2 →
      ∃ (r : Option (Option Error)) (evs evs2 : List Event),
        (∀ n : ReleaseVersionRec → NoteRec,
          syncLoop env fuel sources { notes := n, log := l }
            = r.map fun x => (x, advance evs { notes := n, log := l })) ∧
        (∀ n : ReleaseVersionRec → NoteRec,
          syncLoop env2 fuel sources { notes := n, log := l2 }
            = r.map fun x => (x, advance evs2 { notes := n, log := l2 })) ∧
        SameCalls evs evs2 := by
  intro sources
  induction sources with
  | nil =>
    intro l l2 _
    exact ⟨some none, [], [], fun n => by simp [syncLoop, advance_nil],
      fun n => by simp [syncLoop, advance_nil], sameCalls_refl _⟩
  | cons source rest ih =>
    intro l l2 hsame
    rcases hns : newGithubSource source with ⟨gh, _ | _⟩
    · obtain ⟨r, evs, evs2, h1, h2, h3⟩ := ih l l2 hsame
      exact ⟨r, evs, evs2, fun n => by simp only [syncLoop, hns]; exact h1 n,
        fun n => by simp only [syncLoop, hns]; exact h2 n, h3⟩
    · have hresp : env2.FindAll (l2.countP Event.isFindAll) source.Full
          = env.FindAll (l.countP Event.isFindAll) source.Full := by
        have := hsame.2.1 0 source.Full
        simpa using this
      cases hf : env.FindAll (l.countP Event.isFindAll) source.Full with
      | error err =>
        rw [hf] at hresp
        refine ⟨some (some (.wrap err (.listingVersions source))),
          [.findAll source.Full (some err)], [.findAll source.Full (some err)],
          fun n => ?_, fun n => ?_, sameCalls_refl _⟩
        · simp [syncLoop, hns, FindAll, hf, errOf, emit, advance, applyEvents, applyEvent]
        · simp [syncLoop, hns, FindAll, hresp, errOf, emit, advance, applyEvents, applyEvent]
      | ok recs =>
        rw [hf] at hresp
        have hsame1 := sameUpstream_append [Event.findAll source.Full none]
          [Event.findAll source.Full none] hsame (sameCalls_refl _)
        obtain ⟨r1, e1, e1', h1, h1', hc1⟩ :=
          importNotes_sim env env2 fuel gh recs _ _ hsame1
        have hadv : ∀ (n : ReleaseVersionRec → NoteRec) (lg evs : List Event),
            advance evs { notes := n, log := lg ++ [.findAll source.Full none] }
              = advance (.findAll source.Full none :: evs) { notes := n, log := lg } := by
          intro n lg evs
          simp [advance, applyEvents, applyEvent]
        have hstep : ∀ n : ReleaseVersionRec → NoteRec,
            syncLoop env fuel (source :: rest) { notes := n, log := l }
              = match r1.map fun x =>
                    (x, advance (.findAll source.Full none :: e1) { notes := n, log := l })
                with
                | none => none
                | some (some err, w2) => some (some (.wrap err (.importingNotes source)), w2)
                | some (none, w2) => syncLoop env fuel rest w2 := by
          intro n
          simp only [syncLoop, hns, FindAll, hf, errOf, emit]
          rw [h1 n]
          simp only [hadv]
        have hstep' : ∀ n : ReleaseVersionRec → NoteRec,
            syncLoop env2 fuel (source :: rest) { notes := n, log := l2 }
              = match r1.map fun x =>
                    (x, advance (.findAll source.Full none :: e1') { notes := n, log := l2 })
                with
                | none => none
                | some (some err, w2) => some (some (.wrap err (.importingNotes source)), w2)
                | some (none, w2) => syncLoop env2 fuel rest w2 := by
          intro n
          simp only [syncLoop, hns, FindAll, hresp, errOf, emit]
          rw [h1' n]
          simp only [hadv]
        have hcb : SameCalls (Event.findAll source.Full none :: e1)
            (Event.findAll source.Full none :: e1') :=
          sameCalls_append (sameCalls_refl [Event.findAll source.Full none]) hc1
        cases r1 with
        | none =>
          exact ⟨none, [], [], fun n => by rw [hstep n]; rfl,
            fun n => by rw [hstep' n]; rfl, sameCalls_refl _⟩
        | some ierr =>
          cases ierr with
          | some err =>
            exact ⟨some (some (.wrap err (.importingNotes source))),
              .findAll source.Full none :: e1, .findAll source.Full none :: e1',
              fun n => by rw [hstep n]; rfl, fun n => by rw [hstep' n]; rfl, hcb⟩
          | none =>
            obtain ⟨r2, e2, e2', h2, h2', hc2⟩ := ih
              (l ++ (.findAll source.Full none :: e1))
              (l2 ++ (.findAll source.Full none :: e1'))
              (sameUpstream_append _ _ hsame hcb)
            refine ⟨r2, (.findAll source.Full none :: e1) ++ e2,
              (.findAll source.Full none :: e1') ++ e2', fun n => ?_, fun n => ?_,
              sameCalls_append hcb hc2⟩
            · rw [hstep n]
              simp only [Option.map_some']
              have : advance (.findAll source.Full none :: e1) { notes := n, log := l }
                  = { notes := applyEvents (.findAll source.Full none :: e1) n,
                      log := l ++ (.findAll source.Full none :: e1) } := rfl
              rw [this, h2]
              cases r2 with
              | none => rfl
              | some z =>
                simp only [Option.map_some']
                rw [advance_append]
                rfl
            · rw [hstep' n]
              simp only [Option.map_some']
              have : advance (.findAll source.Full none :: e1') { notes := n, log := l2 }
                  = { notes := applyEvents (.findAll source.Full none :: e1') n,
                      log := l2 ++ (.findAll source.Full none :: e1') } := rfl
              rw [this, h2']
              cases r2 with
              | none => rfl
              | some z =>
                simp only [Option.map_some']
                rw [advance_append]
                rfl

/-- Against the same upstream `Sync` returns the same result in both runs, after the same
saves. -/
theorem Sync_sim (env env2 : Env) (fuel : Nat) (l l2 : List Event)
    (hsame : SameUpstream env l env2 l2) :
    ∃ (r : Option (Option Error)) (evs evs2 : List Event),
      (∀ n : ReleaseVersionRec → NoteRec,
        Sync env fuel { notes := n, log := l }
          = r.map fun x => (x, advance evs { notes := n, log := l })) ∧
      (∀ n : ReleaseVersionRec → NoteRec,
        Sync env2 fuel { notes := n, log := l2 }
          = r.map fun x => (x, advance evs2 { notes := n, log := l2 })) ∧
      SameCalls evs evs2 := by
  have hresp : env2.ListAll (l2.countP Event.isListAll)
      = env.ListAll (l.countP Event.isListAll) := by
    have := hsame.1 0
    simpa using this
  cases hl : env.ListAll (l.countP Event.isListAll) with
  | error err =>
    rw [hl] at hresp
    refine ⟨some (some (.wrap err .listingReleases)), [.listAll (some err)],
      [.listAll (some err)], fun n => ?_, fun n => ?_, sameCalls_refl _⟩
    · simp [Sync, ListAll, hl, errOf, emit, advance, applyEvents, applyEvent]
    · simp [Sync, ListAll, hresp, errOf, emit, advance, applyEvents, applyEvent]
  | ok sources =>
    rw [hl] at hresp
    obtain ⟨r, evs, evs2, h1, h2, hc⟩ := syncLoop_sim env env2 fuel sources
      (l ++ [.listAll none]) (l2 ++ [.listAll none])
      (sameUpstream_append _ _ hsame (sameCalls_refl _))
    refine ⟨r, .listAll none :: evs, .listAll none :: evs2, fun n => ?_, fun n => ?_,
      sameCalls_append (sameCalls_refl [Event.listAll none]) hc⟩
    · simp only [Sync, ListAll, hl, errOf, emit]
      rw [h1 n]
      cases r with
      | none => rfl
      | some z => simp [advance, applyEvents, applyEvent]
    · simp only [Sync, ListAll, hresp, errOf, emit]
      rw [h2 n]
      cases r with
      | none => rfl
      | some z => simp [advance, applyEvents, applyEvent]

/-- C8. Let a run of `Sync` return.  A second run that starts from the note store the first
one left, in any call log, against an upstream that answers its calls as the first run was
answered - the same sources, version lists, release pages and write outcomes, call for call
(`SameUpstream`), whatever the two clocks read - returns the same result and leaves every
record with the notes it had after the first run. -/
theorem Sync_idempotent (env env2 : Env) (fuel : Nat) (w : World) (l2 : List Event)
    (err : Option Error) (w1 : World)
    (h : Sync env fuel w = some (err, w1))
    (hsame : SameUpstream env w.log env2 l2) :
    ∃ w2 : World, Sync env2 fuel { notes := w1.notes, log := l2 } = some (err, w2) ∧
      ∀ r : ReleaseVersionRec, w2.notes r = w1.notes r := by
  obtain ⟨r, evs, evs2, h1, h2, hc⟩ := Sync_sim env env2 fuel w.log l2 hsame
  have h1w := h1 w.notes
  change Sync env fuel w = _ at h1w
  rw [h] at h1w
  cases r with
  | none => simp at h1w
  | some x =>
    simp only [Option.map_some', Option.some.injEq, Prod.mk.injEq] at h1w
    obtain ⟨rfl, rfl⟩ := h1w
    refine ⟨_, by rw [h2]; rfl, fun r => ?_⟩
    simp only [advance]
    rw [← applyEvents_of_setNotesOf evs evs2 _ hc.1, applyEvents_idem]


/-- C8 on two runs in succession: the first with the clock at 400, the second, in the log
the first one left, with the clock at 900; the second sleeps for another time and leaves the
notes of the first. -/
theorem Sync_idempotent_witness :
    Sync (clockEnv 400) 1 staleWorld = some (none, advance clockLog staleWorld) ∧
    SameUpstream (clockEnv 400) staleWorld.log (clockEnv 900) clockLog ∧
    ∃ w2 : World,
      Sync (clockEnv 900) 1
          { notes := (advance clockLog staleWorld).notes, log := clockLog }
        = some (none, w2) ∧
      ∀ r : ReleaseVersionRec, w2.notes r = (advance clockLog staleWorld).notes r :=
  ⟨rfl, ⟨fun _ => rfl, fun _ _ => rfl, fun _ _ _ => rfl, fun _ _ _ _ => rfl⟩,
    Sync_idempotent (clockEnv 400) (clockEnv 900) 1 staleWorld clockLog none
      (advance clockLog staleWorld) rfl
      ⟨fun _ => rfl, fun _ _ => rfl, fun _ _ _ => rfl, fun _ _ _ _ => rfl⟩⟩

end Worker
